import Mathlib

/-!
Verification of the peaque web-framework core against its specification.

The TypeScript sources are shallowly embedded: JavaScript strings are
modelled as `List Char` (written `Str`), JavaScript `undefined`-able values
as `Option`, mutable maps and the file system as association lists, and
fallible operations as `Option`/`Except`.  Each definition is a direct
translation of the function of the same name in the repository; external
collaborators (Node's `path` module, the WHATWG `URL` parser) are modelled
explicitly and documented at their definitions.
-/

namespace Peaque

/-- JavaScript strings, modelled as lists of characters so that prefix and
concatenation reasoning is elementary. -/
abbrev Str := List Char

/-- Embed a Lean string literal as a `Str`. -/
def lit (s : String) : Str := s.data

/-- `s.startsWith pre` of JavaScript: `pre` is a prefix of `s`. -/
def strStartsWith (s pre : Str) : Bool := pre.isPrefixOf s

/-- Association-list lookup keyed on `Str`, modelling JavaScript `Map.get`
and property lookup. -/
def lookupA {α : Type} : List (Str × α) → Str → Option α
  | [], _ => none
  | (k, v) :: rest, key => if k = key then some v else lookupA rest key

/-- Association-list insert-or-replace, modelling `Map.set`. -/
def upsertA {α : Type} : List (Str × α) → Str → α → List (Str × α)
  | [], key, v => [(key, v)]
  | (k, w) :: rest, key, v =>
      if k = key then (k, v) :: rest else (k, w) :: upsertA rest key v

/-- Association-list removal, modelling `unlinkSync` / `Map.delete`. -/
def removeA {α : Type} : List (Str × α) → Str → List (Str × α)
  | [], _ => []
  | (k, v) :: rest, key =>
      if k = key then removeA rest key else (k, v) :: removeA rest key

/-- JavaScript truthiness of a `string | undefined` value: `undefined` and
the empty string are falsy. -/
def truthyOpt (o : Option Str) : Bool :=
  match o with
  | some s => !s.isEmpty
  | none => false

/-! ## HTTP requests (the projection of `PeaqueRequest` used by the code
under study: `method()`, `path()`, and the three headers the guard reads). -/

/-- The request fields consulted by the cross-origin guard and the
dispatchers: `method()`, `path()`, `requestHeader("sec-fetch-site")`,
`requestHeader("origin")`, `requestHeader("host")`. -/
structure PeaqueRequest where
  method : Str
  path : Str
  secFetchSite : Option Str
  origin : Option Str
  host : Option Str

/-! ## Cross-origin / CSRF guard
Translated from `src/packages/framework/src/http/csrf-protection-helpers.ts`
and `src/packages/framework/src/http/cross-origin-protection.ts`. -/

/-- Index of the first occurrence of the separator `sep` as a contiguous
sublist of `s` (helper for `extractHost`). -/
def findSub : Str → Str → Option Nat
  | [], sep => if sep = [] then some 0 else none
  | c :: rest, sep =>
      if sep.isPrefixOf (c :: rest) then some 0
      else (findSub rest sep).map (· + 1)

/-- Modelled from the WHATWG `URL` collaborator: `new URL(origin).host`
for an origin of the shape `scheme://host[:port][/…]`.  Returns `none`
when the string has no `://` or an empty scheme or host, modelling the
`URL` constructor throwing (caught and turned into `null` by
`extractHost` in the source). -/
def extractHost (origin : Str) : Option Str :=
  match findSub origin (lit "://") with
  | none => none
  | some i =>
      let scheme := origin.take i
      let rest := origin.drop (i + 3)
      let host := rest.takeWhile (fun c => c ≠ '/')
      if scheme = [] ∨ host = [] then none else some host

/-- Translation of `checkCsrfProtection` from
`csrf-protection-helpers.ts`: the boolean-valued guard used by the
generated production backend. -/
def checkCsrfProtection (req : PeaqueRequest) : Bool :=
  if req.method = lit "GET" ∨ req.method = lit "HEAD" ∨ req.method = lit "OPTIONS" then
    true
  else
    match req.secFetchSite with
    | some sfs =>
        if sfs ≠ [] then
          decide (sfs = lit "same-origin" ∨ sfs = lit "none")
        else
          checkOriginFallback req
    | none => checkOriginFallback req
where
  /-- The `Origin`/`Host` fallback branch of `checkCsrfProtection`
  (reached when `Sec-Fetch-Site` is absent or empty). -/
  checkOriginFallback (req : PeaqueRequest) : Bool :=
    match req.origin with
    | none => true
    | some o =>
        if o = [] then true
        else
          match extractHost o with
          | none => false
          | some originHost => req.host = some originHost

/-- Configuration of `CrossOriginProtection`: bypass patterns (a `RegExp`
is modelled as a predicate on the path) and the trusted-origin set. -/
structure CsrfConfig where
  bypassPatterns : List (Str → Bool)
  trustedOrigins : List Str

/-- The decision taken by the `CrossOriginProtection.getMiddleware`
closure: either `next` is invoked, or one of its three 403 responses is
sent (distinguished by their bodies). -/
inductive GuardDecision where
  | allow
  | denyCrossOrigin
  | denyInvalidOrigin
  | denyOlderBrowser
deriving DecidableEq

/-- Translation of `CrossOriginProtection.isRequestExempt`. -/
def isRequestExempt (cfg : CsrfConfig) (req : PeaqueRequest) : Bool :=
  if cfg.bypassPatterns.any (fun pat => pat req.path) then true
  else
    match req.origin with
    | some o => !o.isEmpty && cfg.trustedOrigins.contains o
    | none => false

/-- Translation of the middleware returned by
`CrossOriginProtection.getMiddleware`, as the decision it takes on a
request. -/
def crossOriginMiddleware (cfg : CsrfConfig) (req : PeaqueRequest) : GuardDecision :=
  if req.method = lit "GET" ∨ req.method = lit "HEAD" ∨ req.method = lit "OPTIONS" then
    .allow
  else
    match req.secFetchSite with
    | some sfs =>
        if sfs ≠ [] then
          if sfs = lit "same-origin" ∨ sfs = lit "none" then .allow
          else if isRequestExempt cfg req then .allow
          else .denyCrossOrigin
        else
          originFallback cfg req
    | none => originFallback cfg req
where
  /-- The `Origin`/`Host` fallback branch of the middleware. -/
  originFallback (cfg : CsrfConfig) (req : PeaqueRequest) : GuardDecision :=
    match req.origin with
    | none => .allow
    | some o =>
        if o = [] then .allow
        else
          match extractHost o with
          | none =>
              if isRequestExempt cfg req then .allow else .denyInvalidOrigin
          | some originHost =>
              if req.host = some originHost then .allow
              else if isRequestExempt cfg req then .allow
              else .denyOlderBrowser

/-! ## Server-action (RPC) dispatchers
Dev-server side translated from `handleRpcRequest` in
`dev-server-modules.ts`; production side translated from the handler
emitted by `generateBackendServerCode`
(`src/packages/framework/src/compiler/prod/backend-program.ts`). -/

/-- A value exported by a loaded module: either a function (whose encoded
result on the request at hand is `result`) or a non-function export.  The
`superjson` wire codec is opaque here, so a function is modelled by the
encoded string it produces. -/
inductive ExportVal where
  | fn (result : Str)
  | notFn
deriving DecidableEq

/-- A loaded JavaScript module: its exports keyed by name. -/
abbrev JsModule := List (Str × ExportVal)

/-- Response bodies sent by the code under study: plain text, the JSON
error object `{error: msg}`, or an encoded payload. -/
inductive Body where
  | text (s : Str)
  | errObj (msg : Str)
  | json (s : Str)
deriving DecidableEq

/-- An HTTP response as produced by `req.code(...).send(...)`. -/
structure Response where
  status : Nat
  body : Body
deriving DecidableEq

/-- JavaScript `s.substring(0, s.lastIndexOf("/"))` and
`s.substring(s.lastIndexOf("/") + 1)` as a pair: split at the last slash.
With no slash present, `lastIndexOf` is `-1` and the pair is
`("", s)`, exactly as in JavaScript. -/
def splitLastSlash (s : Str) : Str × Str :=
  let revSpan := s.reverse.span (fun c => c ≠ '/')
  match revSpan.2 with
  | [] => ([], s)
  | _ :: before => (before.reverse, revSpan.1.reverse)

/-- Outcome of the dev-server RPC dispatcher: the promise rejects (module
load fails), or a response is sent; `invoked` records the name of the
server-action function that was actually called, if any. -/
inductive RpcOutcome where
  | thrown
  | responded (r : Response) (invoked : Option Str)
deriving DecidableEq

/-- Translation of `handleRpcRequest` (dev server,
`dev-server-modules.ts`).  `loadModule` models
`moduleCache.cacheByHash(..., () => moduleLoader.loadModule(moduleName))`
returning the loaded module's exports (the in-memory `FileCache` is not
under `src/`; per the spec it memoizes the loader, which is transparent
here).  Note the translated body consults no header and contains no call
to the cross-origin guard. -/
def handleRpcRequest (req : PeaqueRequest) (loadModule : Str → Option JsModule) :
    RpcOutcome :=
  let rpcPath := req.path.drop 11
  let pair := splitLastSlash rpcPath
  let moduleName := pair.1
  let functionName := pair.2
  match loadModule moduleName with
  | none => .thrown
  | some m =>
      match lookupA m functionName with
      | some (.fn result) =>
          .responded { status := 200, body := .json result } (some functionName)
      | _ =>
          .responded { status := 404, body := .text (lit "RPC handler not found") } none

/-- Translation of the per-function POST handler emitted at
`backend-program.ts` line 171: it runs `checkCsrfProtection` first and
sends the 403 error object on failure, otherwise invokes the server
action.  The returned `Bool` records whether the function was invoked. -/
def generatedRpcHandler (result : Str) (req : PeaqueRequest) : Response × Bool :=
  if !checkCsrfProtection req then
    ({ status := 403, body := .errObj (lit "Forbidden: Cross-origin request rejected") }, false)
  else
    ({ status := 200, body := .json result }, true)

/-! ## API request dispatch (dev server)
Translated from `handleBackendApiRequest` in `dev-server-api.ts`.  The
route-tree `match` function lives in `router/router.ts`, which is not part
of the sources under study; it is abstracted as the `matchRoute`
parameter (exactly how the repository's own unit tests drive this
function). -/

/-- The result of `match`: path parameters plus the matched node's
`names.handler` and `stacks.middleware` (already parent-flattened). -/
structure MatchResult where
  params : List (Str × Str)
  handler : Str
  middleware : List Str

/-- JavaScript `toUpperCase` on ASCII method names. -/
def toUpperStr (s : Str) : Str := s.map Char.toUpper

/-- Outcome of the API dispatcher: a direct response, or the middleware
chain executed down to the matched handler. -/
inductive ApiOutcome where
  | thrown
  | responded (r : Response)
  | executed (middleware : List Str) (result : Str)
deriving DecidableEq

/-- Translation of `handleBackendApiRequest` (`dev-server-api.ts`).
`matchRoute` abstracts `match(path, backendRouter)`; `loadModule` models
the module cache/loader pair resolving the matched handler file to its
exports. -/
def handleBackendApiRequest (req : PeaqueRequest)
    (matchRoute : Str → Option MatchResult)
    (loadModule : Str → Option JsModule) : ApiOutcome :=
  match matchRoute (req.path.drop 4) with
  | none => .responded { status := 404, body := .text (lit "Not Found") }
  | some mr =>
      match loadModule mr.handler with
      | none => .thrown
      | some apiModule =>
          match lookupA apiModule (toUpperStr req.method) with
          | some (.fn result) => .executed mr.middleware result
          | _ =>
              .responded { status := 500, body := .text (lit "No handler for this method") }

/-! ## POSIX path model
The Node `path` module is an external collaborator.  It is modelled here
on `Str` with explicit segment lists: `splitSlash`/`joinSlash` convert
between a path string and its `/`-separated segments, and `normAcc`
performs the `.`/`..`/empty-segment resolution that `path.normalize`,
`path.join` and `path.resolve` share. -/

/-- Split a string at every `/` (like `s.split("/")`); never returns the
empty list. -/
def splitSlash : Str → List Str
  | [] => [[]]
  | c :: rest =>
      if c = '/' then [] :: splitSlash rest
      else
        match splitSlash rest with
        | [] => [[c]]
        | seg :: segs => (c :: seg) :: segs

/-- Join segments with `/` (like `parts.join("/")`). -/
def joinSlash : List Str → Str
  | [] => []
  | [s] => s
  | s :: rest => s ++ '/' :: joinSlash rest

/-- Core segment resolution of POSIX path normalization: drops empty and
`.` segments and resolves `..` (popping a previous segment, or — for an
absolute path — discarding a `..` at the root).  The accumulator holds
the output segments in reverse order. -/
def normAcc (isAbs : Bool) : List Str → List Str → List Str
  | acc, [] => acc
  | acc, seg :: rest =>
      if seg = [] ∨ seg = lit "." then normAcc isAbs acc rest
      else if seg = lit ".." then
        match acc with
        | [] => if isAbs then normAcc isAbs [] rest else normAcc isAbs [lit ".."] rest
        | a :: restAcc =>
            if a = lit ".." then normAcc isAbs (seg :: a :: restAcc) rest
            else normAcc isAbs restAcc rest
      else normAcc isAbs (seg :: acc) rest

/-- Normalized segments of a segment list. -/
def normSegsList (isAbs : Bool) (l : List Str) : List Str :=
  (normAcc isAbs [] l).reverse

/-- Normalized segments of an absolute path string. -/
def normAbs (s : Str) : List Str := normSegsList true (splitSlash s)

/-- Modelled from Node `path.posix.normalize`: resolve `.`/`..`/empty
segments, keep absoluteness, preserve a trailing slash.  (The model
renders `normalize("a/../")` as `"."` where Node renders `"./"`; the
inputs of the code under study are absolute, where the two agree.) -/
def nodeNormalize (s : Str) : Str :=
  if s = [] then lit "."
  else
    let isAbs := strStartsWith s (lit "/")
    let segs := normSegsList isAbs (splitSlash s)
    let core :=
      if isAbs then '/' :: joinSlash segs
      else if segs = [] then lit "." else joinSlash segs
    if s.getLast? = some '/' ∧ core.getLast? ≠ some '/' ∧ core ≠ lit "." then
      core ++ ['/']
    else core

/-- Modelled from Node `path.posix.join` restricted to two arguments:
drop empty parts, join with `/`, normalize. -/
def pathJoin (a b : Str) : Str :=
  let parts := [a, b].filter (fun p => p ≠ [])
  if parts = [] then lit "." else nodeNormalize (joinSlash parts)

/-- Modelled from Node `path.posix.resolve` with current working
directory `cwd`: an absolute argument is normalized on its own,
otherwise it is resolved against `cwd`; the result is absolute and
carries no trailing separator. -/
def pathResolve (cwd p : Str) : Str :=
  let q := if strStartsWith p (lit "/") then p else cwd ++ '/' :: p
  '/' :: joinSlash (normAbs q)

/-! ## Dev-server source-module resolution
Translated from `serveSourceModule` in `dev-server-modules.ts`. -/

/-- What a path names on disk. -/
inductive FileKind where
  | file
  | dir
deriving DecidableEq

/-- The file system seen through `existsSync`/`statSync`: resolved paths
mapped to what they name. -/
structure SrcFs where
  entries : List (Str × FileKind)

/-- `fileSystem.existsSync(p) && fileSystem.statSync(p).isFile()`. -/
def existsAsFile (fs : SrcFs) (p : Str) : Bool :=
  lookupA fs.entries p = some .file

/-- The extension list of `serveSourceModule`, in source order. -/
def extensionsList : List Str :=
  [lit "", lit ".ts", lit ".tsx", lit ".js", lit ".jsx",
   lit "/index.ts", lit "/index.tsx", lit "/index.js", lit "/index.jsx"]

/-- The candidate full paths tried by `serveSourceModule` for a request
path, in order: `path.resolve(path.join(basePath, srcPath + ext))` where
`srcPath = path.normalize(req.path().substring(5))`. -/
def srcCandidates (basePath cwd reqPath : Str) : List Str :=
  let srcPath := nodeNormalize (reqPath.drop 5)
  extensionsList.map (fun ext => pathResolve cwd (pathJoin basePath (srcPath ++ ext)))

/-- Outcome of `serveSourceModule`: an error response, or the chosen file
is read and streamed through the transform pipeline (`served` records the
chosen full path; the transform itself is downstream of the claims). -/
inductive ServeResult where
  | response (r : Response)
  | served (fullPath : Str)
deriving DecidableEq

/-- Translation of `serveSourceModule` (`dev-server-modules.ts`): try the
nine candidates in order, skipping any that does not resolve under the
project root or is not an existing regular file; 404 when none is
found. -/
def serveSourceModule (reqPath basePath cwd : Str) (fs : SrcFs) : ServeResult :=
  let resolvedBasePath := pathResolve cwd basePath
  let fullPath := (srcCandidates basePath cwd reqPath).find? (fun candidate =>
      (strStartsWith candidate (resolvedBasePath ++ ['/']) || candidate = resolvedBasePath)
      && existsAsFile fs candidate)
  match fullPath with
  | none => .response { status := 404, body := .text (lit "File not found") }
  | some p => .served p

/-! ## Head descriptors and their merge
Translated from `mergeHead`/`mergeByKey` in `client/head.ts`. -/

/-- A `<meta>` descriptor item. -/
structure MetaItem where
  name : Option Str
  property : Option Str
  httpEquiv : Option Str
  charset : Option Str
  content : Option Str
deriving DecidableEq

/-- A `<link>` descriptor item (`typeAttr` embeds the `type` field,
`linkAs` the `as` field; both are renamed only because of Lean keywords). -/
structure LinkItem where
  rel : Str
  href : Str
  linkAs : Option Str
  typeAttr : Option Str
  sizes : Option Str
  media : Option Str
  crossOrigin : Option Str
deriving DecidableEq

/-- A `<script>` descriptor item. -/
structure ScriptItem where
  src : Option Str
  typeAttr : Option Str
  async : Option Bool
  defer : Option Bool
  innerHTML : Option Str
deriving DecidableEq

/-- A `<style>` descriptor item. -/
structure StyleItem where
  typeAttr : Option Str
  innerHTML : Str
deriving DecidableEq

/-- A free-form extra head element (a record, as an association list). -/
abbrev ExtraItem := List (Str × Str)

/-- The head descriptor: every field is optional, as in the TypeScript
interface. -/
structure HeadDefinition where
  title : Option Str
  meta : Option (List MetaItem)
  link : Option (List LinkItem)
  script : Option (List ScriptItem)
  style : Option (List StyleItem)
  extra : Option (List ExtraItem)
deriving DecidableEq

/-- The loop body of `mergeByKey`: fold the child items into the result
array, overriding the first identity match in place or appending. -/
def mergeInto {α : Type} (same : α → α → Bool) : List α → List α → List α
  | result, [] => result
  | result, c :: cs =>
      match result.findIdx? (fun p => same p c) with
      | some idx => mergeInto same (result.set idx c) cs
      | none => mergeInto same (result ++ [c]) cs

/-- Translation of `mergeByKey` (`client/head.ts`): start from the parent
items and merge the child items in. -/
def mergeByKey {α : Type} (parentArr childArr : Option (List α))
    (same : α → α → Bool) : List α :=
  mergeInto same (parentArr.getD []) (childArr.getD [])

/-- The meta identity predicate of `mergeHead` (the first of `name`,
`property`, `httpEquiv` that both define, with JavaScript truthiness). -/
def metaSame (a b : MetaItem) : Bool :=
  if truthyOpt a.name && truthyOpt b.name then a.name == b.name
  else if truthyOpt a.property && truthyOpt b.property then a.property == b.property
  else if truthyOpt a.httpEquiv && truthyOpt b.httpEquiv then a.httpEquiv == b.httpEquiv
  else false

/-- The link identity predicate: `rel` and `href` both equal. -/
def linkSame (a b : LinkItem) : Bool := a.rel == b.rel && a.href == b.href

/-- The script identity predicate: equal `src` when both are truthy. -/
def scriptSame (a b : ScriptItem) : Bool :=
  if truthyOpt a.src && truthyOpt b.src then a.src == b.src else false

/-- The style identity predicate: `type` and `innerHTML` both equal. -/
def styleSame (a b : StyleItem) : Bool :=
  a.typeAttr == b.typeAttr && a.innerHTML == b.innerHTML

/-- Translation of `mergeHead` (`client/head.ts`). -/
def mergeHead (parent child : HeadDefinition) : HeadDefinition where
  title :=
    if truthyOpt child.title then child.title
    else if truthyOpt parent.title then parent.title
    else none
  meta := some (mergeByKey parent.meta child.meta metaSame)
  link := some (mergeByKey parent.link child.link linkSame)
  script := some (mergeByKey parent.script child.script scriptSame)
  style := some (mergeByKey parent.style child.style styleSame)
  extra := some (parent.extra.getD [] ++ child.extra.getD [])

/-- The empty head descriptor `∅` of the merge laws. -/
def emptyHead : HeadDefinition :=
  { title := none, meta := none, link := none, script := none,
    style := none, extra := none }

/-- The normalization `mergeHead` applies to a descriptor: absent
sequences become present empty sequences and a non-truthy title is
dropped.  (Stated from the merge laws; used to phrase the amended unit
laws.) -/
def normalizeHead (x : HeadDefinition) : HeadDefinition where
  title := if truthyOpt x.title then x.title else none
  meta := some (x.meta.getD [])
  link := some (x.link.getD [])
  script := some (x.script.getD [])
  style := some (x.style.getD [])
  extra := some (x.extra.getD [])

/-! ## Disk cache
Translated from the `DiskCache` class (`disk-cache.ts`, shipped inside
`src/packages/framework/src/filesystem/node-file-system.ts`).  The cache
directory's contents are an association list from file name to entry;
file contents are either raw data or the parsed `index.json` (JSON
serialization being external, a non-index content stored at `index.json`
models a corrupted index whose parse throws). -/

/-- One entry of the cache index: `{key, hash, timestamp}`. -/
structure CacheMetadata where
  key : Str
  hash : Str
  timestamp : Nat
deriving DecidableEq

/-- Contents of a regular file in the cache directory. -/
inductive FileContent where
  | data (s : Str)
  | indexFile (version : Str) (entries : List CacheMetadata)
deriving DecidableEq

/-- A directory entry: a regular file with contents, or a directory. -/
inductive FsEntry where
  | file (content : FileContent)
  | dir
deriving DecidableEq

/-- `statSync(p).isFile()`. -/
def FsEntry.isFile : FsEntry → Bool
  | .file _ => true
  | .dir => false

/-- The run-time state of a `DiskCache`: the in-memory metadata map and
the cache directory's contents (file names within the cache directory). -/
structure CacheState where
  metadataCache : List (Str × CacheMetadata)
  files : List (Str × FsEntry)
deriving DecidableEq

/-- The character class kept by the safe-key regex
`[^a-zA-Z0-9@\-_] → "_"`. -/
def safeKey (key : Str) : Str :=
  key.map (fun c => if c.isAlphanum ∨ c = '@' ∨ c = '-' ∨ c = '_' then c else '_')

/-- Translation of `getCacheFilePath`: `<safeKey>.<hash first 12>.cache`
(as a name inside the cache directory). -/
def getCacheFilePath (key hash : Str) : Str :=
  safeKey key ++ '.' :: hash.take 12 ++ lit ".cache"

/-- The index file's name inside the cache directory. -/
def indexName : Str := lit "index.json"

/-- Translation of `clearAllFiles`: unlink every regular file in the
cache directory (directories are left alone) and clear the metadata
map. -/
def clearAllFiles (st : CacheState) : CacheState where
  metadataCache := []
  files := st.files.filter (fun e => !e.2.isFile)

/-- Translation of `loadMetadataIndex`: read `index.json`; wipe the cache
on a version mismatch or an unreadable/corrupted index; otherwise load
the entries into the metadata map. -/
def loadMetadataIndex (cacheVersion : Str) (files : List (Str × FsEntry)) : CacheState :=
  let st0 : CacheState := { metadataCache := [], files := files }
  match lookupA files indexName with
  | some (.file (.indexFile v entries)) =>
      if v ≠ cacheVersion then clearAllFiles st0
      else { metadataCache := entries.map (fun e => (e.key, e)), files := files }
  | some (.file (.data _)) => clearAllFiles st0
  | some .dir => clearAllFiles st0
  | none => st0

/-- The store step of a `cacheByHash` miss: write the cache file, update
the metadata map, rewrite `index.json` (`saveMetadataIndex`), and return
the produced value with the producer-invoked flag set. -/
def cacheStore (version : Str) (st : CacheState) (key hash value : Str) (now : Nat) :
    Str × CacheState × Bool :=
  let files1 := upsertA st.files (getCacheFilePath key hash) (.file (.data value))
  let meta1 := upsertA st.metadataCache key { key := key, hash := hash, timestamp := now }
  let files2 := upsertA files1 indexName (.file (.indexFile version (meta1.map Prod.snd)))
  (value, { metadataCache := meta1, files := files2 }, true)

/-- Translation of `DiskCache.cacheByHash`.  The producer is modelled by
the value it would produce (`producedValue`); the returned `Bool` records
whether the producer was invoked.  On a hit the persisted bytes are
returned unchanged; on a hash mismatch the old `(key, old-hash)` cache
file is unlinked before producing and storing. -/
def cacheByHash (version : Str) (st : CacheState) (key hash producedValue : Str)
    (now : Nat) : Str × CacheState × Bool :=
  match lookupA st.metadataCache key with
  | some m =>
      if m.hash = hash then
        match lookupA st.files (getCacheFilePath key hash) with
        | some (.file (.data cached)) => (cached, st, false)
        | _ => cacheStore version st key hash producedValue now
      else
        let stDel : CacheState := { st with files := removeA st.files (getCacheFilePath key m.hash) }
        cacheStore version stDel key hash producedValue now
  | none => cacheStore version st key hash producedValue now

/-! ## Import rewriter
Translated from `makeImportsRelative`/`setupImportAliases`
(`src/packages/framework/src/compiler/imports.ts`).  A module is
structured as the chunks the rewriting regexes act on: plain text, a
static `import … from "p"` clause, and a dynamic `import("p")`; the
regexes replace exactly the quoted path of each import chunk. -/

/-- A chunk of a source module as seen by the import-rewriting regexes. -/
inductive Chunk where
  | text (s : Str)
  | staticImport (clause : Str) (path : Str)
  | dynamicImport (path : Str)
deriving DecidableEq

/-- The `stripExtensions` helper: drop one trailing recognized
JS/TS extension (`.tsx|.ts|.jsx|.js`, tried in the regex's alternation
order). -/
def stripExtensions (p : Str) : Str :=
  if (lit ".tsx").isSuffixOf p then p.take (p.length - 4)
  else if (lit ".ts").isSuffixOf p then p.take (p.length - 3)
  else if (lit ".jsx").isSuffixOf p then p.take (p.length - 4)
  else if (lit ".js").isSuffixOf p then p.take (p.length - 3)
  else p

/-- Modelled from Node `path.dirname` (posix): the part before the last
slash; `"."` when there is no slash, `"/"` when the last slash is
leading. -/
def pathDirname (s : Str) : Str :=
  if !s.contains '/' then lit "."
  else
    let pair := splitLastSlash s
    if pair.1 = [] then lit "/" else pair.1

/-- The alias loop of `resolvePath`: first alias whose name equals the
imported path (returning its target), or whose name followed by `/` is a
prefix of it (returning the target plus the remainder). -/
def findAlias : List (Str × Str) → Str → Option Str
  | [], _ => none
  | (aliasKey, target) :: rest, importPath =>
      if importPath = aliasKey then some target
      else if strStartsWith importPath (aliasKey ++ ['/']) then
        some (target ++ importPath.drop aliasKey.length)
      else findAlias rest importPath

/-- Translation of the `resolvePath` closure inside
`makeImportsRelative`: pass through already-resolved paths, resolve
relative paths against the including file's directory, apply `tsconfig`
aliases, map absolute project paths to `/@src/`, and treat anything else
as a bare dependency. -/
def resolvePath (aliases : List (Str × Str)) (basePath importPath : Str) : Str :=
  if strStartsWith importPath (lit "/@deps/") ∨ strStartsWith importPath (lit "/@src/") then
    importPath
  else if strStartsWith importPath (lit ".") then
    let resolved := (pathJoin basePath importPath).map (fun c => if c = '\\' then '/' else c)
    lit "/@src/" ++ stripExtensions resolved
  else
    match findAlias aliases importPath with
    | some targetPath => lit "/@src/" ++ targetPath
    | none =>
        if strStartsWith importPath (lit "/") then lit "/@src/" ++ importPath
        else lit "/@deps/" ++ importPath

/-- Translation of `makeImportsRelative`: rewrite the path of every
static and dynamic import chunk through `resolvePath`, with `basePath`
the directory of the including file. -/
def makeImportsRelative (aliases : List (Str × Str)) (fileChunks : List Chunk)
    (includingPath : Str) : List Chunk :=
  let basePath := pathDirname includingPath
  fileChunks.map (fun chunk =>
    match chunk with
    | .text s => .text s
    | .staticImport clause p => .staticImport clause (resolvePath aliases basePath p)
    | .dynamicImport p => .dynamicImport (resolvePath aliases basePath p))

/-! ## Server-action shim generator
Translated from the oxc-parser based `makeRpcShim`
(`src/packages/framework/src/server/make-rpc.ts`, lines 111–235).  The
parser is an external collaborator; its AST is embedded below with
exactly the shape the generator inspects.  Re-export specifiers carry a
ghost `targetAsync` field recording whether the re-exported function is
declared async in its defining module — the generator cannot see it
(oxc parses one file), and the translation accordingly never reads
it. -/

/-- A variable initializer that is an arrow function or a function
expression, with its asyncness. -/
inductive FnInit where
  | arrow (async : Bool)
  | fnExpr (async : Bool)
deriving DecidableEq

/-- The `async` flag of an arrow/function-expression initializer (the
generator treats the two node kinds identically). -/
def FnInit.isAsync : FnInit → Bool
  | .arrow a => a
  | .fnExpr a => a

/-- A variable declarator: `idName` is `some` when the binding pattern is
a plain identifier; `init` is `some` when the initializer is an
arrow/function expression (any other or missing initializer is `none`,
which the generator treats identically). -/
structure Declarator where
  idName : Option Str
  init : Option FnInit
deriving DecidableEq

/-- An export specifier `local as exported`; `targetAsync` is the ghost
asyncness of the re-exported function (see section comment). -/
structure ExportSpec where
  localName : Str
  exportedName : Str
  targetAsync : Bool
deriving DecidableEq

/-- The declaration attached to an `export` statement. -/
inductive DeclInner where
  | funcDecl (idName : Option Str) (async : Bool)
  | varDecl (declarations : List Declarator)
  | otherDecl
deriving DecidableEq

/-- A top-level statement, restricted to the shapes `makeRpcShim`
inspects. -/
inductive Stmt where
  | funcDecl (idName : Option Str) (async : Bool)
  | varDecl (declarations : List Declarator)
  | exportNamed (decl : Option DeclInner) (hasSource : Bool) (specifiers : List ExportSpec)
  | exportAll
  | exportDefaultFn (async : Bool)
  | exportDefaultIdent (name : Str)
  | exportDefaultOther
  | otherStmt
deriving DecidableEq

/-- The `localFunctions` tracking step at the top of the statement loop:
record plain function declarations and arrow/function-expression
variable declarators with their asyncness. -/
def trackLocals (locals : List (Str × Bool)) : Stmt → List (Str × Bool)
  | .funcDecl (some n) async => upsertA locals n async
  | .varDecl decls =>
      decls.foldl (fun ls d =>
        match d.idName, d.init with
        | some n, some i => upsertA ls n i.isAsync
        | _, _ => ls) locals
  | _ => locals

/-- The exported-variable-declaration loop: fail on a non-async
arrow/function-expression initializer (naming the identifier, or
`unknown` for a pattern binding), collect identifier names. -/
def checkExportedDeclarators (acc : List Str) : List Declarator → Except Str (List Str)
  | [] => .ok acc
  | d :: rest =>
      match d.init with
      | some i =>
          if !i.isAsync then
            .error (lit "Exported function " ++ d.idName.getD (lit "unknown") ++ lit " is not async")
          else
            checkExportedDeclarators (acc ++ (match d.idName with | some n => [n] | none => [])) rest
      | none => checkExportedDeclarators acc rest

/-- The `export { foo, bar }` (no source) loop: skip names not known as
local functions, fail on a known non-async one, collect the rest. -/
def checkLocalSpecifiers (locals : List (Str × Bool)) (acc : List Str) :
    List ExportSpec → Except Str (List Str)
  | [] => .ok acc
  | spec :: rest =>
      match lookupA locals spec.localName with
      | none => checkLocalSpecifiers locals acc rest
      | some a =>
          if !a then
            .error (lit "Exported function " ++ spec.exportedName ++ lit " is not async")
          else checkLocalSpecifiers locals (acc ++ [spec.exportedName]) rest

/-- One iteration of the statement loop of `makeRpcShim`: update the
local-function map and the collected `exportedFunctions`, or fail with
the generator's diagnostic. -/
def rpcProcessStmt (locals : List (Str × Bool)) (acc : List Str) (stmt : Stmt) :
    Except Str (List (Str × Bool) × List Str) :=
  let locals := trackLocals locals stmt
  match stmt with
  | .exportNamed (some (.funcDecl idName async)) _ _ =>
      if !async then
        .error (lit "Exported function " ++ idName.getD (lit "unknown") ++ lit " is not async")
      else
        .ok (locals, acc ++ (match idName with | some n => [n] | none => []))
  | .exportNamed (some (.varDecl decls)) _ _ =>
      (checkExportedDeclarators acc decls).map (fun acc2 => (locals, acc2))
  | .exportNamed (some .otherDecl) _ _ => .ok (locals, acc)
  | .exportNamed none hasSource specs =>
      if !hasSource then
        (checkLocalSpecifiers locals acc specs).map (fun acc2 => (locals, acc2))
      else
        .ok (locals, acc ++ specs.map (·.exportedName))
  | .exportAll =>
      .error (lit "export * from '...' is not supported in 'use server' files. Please use named exports instead.")
  | .exportDefaultFn async =>
      if !async then .error (lit "Exported function default is not async")
      else .ok (locals, acc ++ [lit "default"])
  | .exportDefaultIdent n =>
      match lookupA locals n with
      | none =>
          .error (lit "Cannot determine if default export '" ++ n ++ lit "' is an async function")
      | some a =>
          if !a then .error (lit "Exported function default is not async")
          else .ok (locals, acc ++ [lit "default"])
  | _ => .ok (locals, acc)

/-- The statement loop of `makeRpcShim` threading the local-function map
and the collected export names. -/
def rpcEnumerate (locals : List (Str × Bool)) (acc : List Str) :
    List Stmt → Except Str (List Str)
  | [] => .ok acc
  | stmt :: rest =>
      match rpcProcessStmt locals acc stmt with
      | .error e => .error e
      | .ok (l2, a2) => rpcEnumerate l2 a2 rest

/-- Translation of `makeRpcShim` up to shim emission: enumerate and
validate the exported functions of a `'use server'` module, failing with
the generator's diagnostics; the shim source itself re-exports exactly
these names, so the export list is the generator's observable output
here. -/
def makeRpcShimExports (program : List Stmt) : Except Str (List Str) :=
  rpcEnumerate [] [] program

/-- The named arrow/function-expression variables of a declarator list,
with their asyncness (helper of the spec enumerations below). -/
def declExports : List Declarator → List (Str × Bool)
  | [] => []
  | d :: rest =>
      (match d.idName, d.init with
       | some n, some i => [(n, i.isAsync)]
       | _, _ => []) ++ declExports rest

/-- The locally declared exported functions of one statement, with their
declared asyncness (named function declaration, named arrow/function
expression variable, default-exported function). -/
def stmtLocalExports : Stmt → List (Str × Bool)
  | .exportNamed (some (.funcDecl idName a)) _ _ =>
      (match idName with | some n => [(n, a)] | none => [])
  | .exportNamed (some (.varDecl decls)) _ _ => declExports decls
  | .exportDefaultFn a => [(lit "default", a)]
  | _ => []

/-- The locally declared exported functions of a program (re-exports
with a source excluded): the subset of the claim's enumeration that the
generator can actually inspect. -/
def locallyDeclaredExports : List Stmt → List (Str × Bool)
  | [] => []
  | stmt :: rest => stmtLocalExports stmt ++ locallyDeclaredExports rest

/-- The value of the generator's `localFunctions` map after the statement
loop has processed a prefix of the program, starting from `locals` (used
to state what the `export \x7b foo \x7d` specifier check sees: the local
functions tracked so far). -/
def localFunctionsAfter (locals : List (Str × Bool)) : List Stmt → List (Str × Bool)
  | [] => locals
  | s :: rest => localFunctionsAfter (trackLocals locals s) rest

/-- The claim's enumeration of "exported functions" with their declared
asyncness, following the spec's words: named function declarations,
named arrow/function-expression variables, re-exports (with the ghost
asyncness of their target), and default-exported functions.  Stated from
the spec for comparison with the generator's behaviour. -/
def claimExportedFunctions : List Stmt → List (Str × Bool)
  | [] => []
  | stmt :: rest =>
      (match stmt with
       | .exportNamed none true specs =>
           specs.map (fun s => (s.exportedName, s.targetAsync))
       | s => stmtLocalExports s) ++ claimExportedFunctions rest

/-! ## Predicates used to state the claims -/

/-- A head descriptor none of whose sequences contains two items sharing
identity (so merging it into `∅` performs no self-collapse). -/
def selfCollapseFree (x : HeadDefinition) : Prop :=
  ((x.meta.getD []).Pairwise fun a b => metaSame a b = false)
  ∧ ((x.link.getD []).Pairwise fun a b => linkSame a b = false)
  ∧ ((x.script.getD []).Pairwise fun a b => scriptSame a b = false)
  ∧ ((x.style.getD []).Pairwise fun a b => styleSame a b = false)

/-- A path-segment suitable for a clean absolute path: non-empty, not a
dot link, and slash-free. -/
def cleanSeg (s : Str) : Prop :=
  s ≠ [] ∧ s ≠ lit "." ∧ s ≠ lit ".." ∧ '/' ∉ s

/-- Keep the segments that survive normalization trivially (drops empty
and `.` segments); helper for the path lemmas. -/
def cleanOf : List Str → List Str
  | [] => []
  | s :: rest => if s = [] ∨ s = lit "." then cleanOf rest else s :: cleanOf rest

/-- Apply a function to the last element of a list (helper describing how
appending slash-free text to a path string acts on its segments). -/
def modifyLast {α : Type} (f : α → α) : List α → List α
  | [] => []
  | [x] => [f x]
  | x :: y :: rest => x :: modifyLast f (y :: rest)

/-! # Theorems -/

/-! ## General helper lemmas -/

theorem isPrefixOf_self_append (a b : Str) : a.isPrefixOf (a ++ b) = true := by
  induction a with
  | nil => simp [List.isPrefixOf]
  | cons x xs ih => simp [List.isPrefixOf, ih]

theorem strStartsWith_self_append (a b : Str) : strStartsWith (a ++ b) a = true :=
  isPrefixOf_self_append a b

theorem lookupA_upsert_self {α : Type} (l : List (Str × α)) (k : Str) (v : α) :
    lookupA (upsertA l k v) k = some v := by
  induction l with
  | nil => simp [upsertA, lookupA]
  | cons p rest ih =>
      by_cases h : p.1 = k
      · simp [upsertA, lookupA, h]
      · simp [upsertA, lookupA, h, ih]

theorem lookupA_upsert_ne {α : Type} (l : List (Str × α)) (k k' : Str) (v : α)
    (h : k ≠ k') : lookupA (upsertA l k v) k' = lookupA l k' := by
  induction l with
  | nil => simp [upsertA, lookupA, h]
  | cons p rest ih =>
      obtain ⟨k1, v1⟩ := p
      simp only [upsertA]
      by_cases hp : k1 = k
      · rw [if_pos hp]
        subst hp
        simp [lookupA, h]
      · rw [if_neg hp]
        simp only [lookupA]
        by_cases hp' : k1 = k'
        · rw [if_pos hp', if_pos hp']
        · rw [if_neg hp', if_neg hp', ih]

theorem lookupA_removeA_self {α : Type} (l : List (Str × α)) (k : Str) :
    lookupA (removeA l k) k = none := by
  induction l with
  | nil => simp [removeA, lookupA]
  | cons p rest ih =>
      by_cases h : p.1 = k
      · simp [removeA, h, ih]
      · simp [removeA, lookupA, h, ih]

/-! ## C1 — dev-server RPC dispatcher versus the cross-origin guard -/

/-- C1: evaluation at the failing input.  A `POST /api/__rpc/test/module/func`
request carrying `Sec-Fetch-Site: cross-site` (no bypass configured):
the dev-server dispatcher `handleRpcRequest` invokes the server-action
function `func` and answers 200 — identically to the same request
without the header, since its translation never consults the guard —
although `checkCsrfProtection` rejects the request, and although the
handler emitted for the production backend answers 403 with the
`Forbidden: Cross-origin request rejected` error body without invoking
the function. -/
theorem c1_dev_rpc_dispatcher_skips_guard :
    handleRpcRequest
        ⟨lit "POST", lit "/api/__rpc/test/module/func", some (lit "cross-site"), none, none⟩
        (fun m => if m = lit "test/module" then some [(lit "func", .fn (lit "RESULT"))] else none)
      = .responded ⟨200, .json (lit "RESULT")⟩ (some (lit "func"))
    ∧ handleRpcRequest
        ⟨lit "POST", lit "/api/__rpc/test/module/func", none, none, none⟩
        (fun m => if m = lit "test/module" then some [(lit "func", .fn (lit "RESULT"))] else none)
      = .responded ⟨200, .json (lit "RESULT")⟩ (some (lit "func"))
    ∧ checkCsrfProtection
        ⟨lit "POST", lit "/api/__rpc/test/module/func", some (lit "cross-site"), none, none⟩ = false
    ∧ generatedRpcHandler (lit "RESULT")
        ⟨lit "POST", lit "/api/__rpc/test/module/func", some (lit "cross-site"), none, none⟩
      = (⟨403, .errObj (lit "Forbidden: Cross-origin request rejected")⟩, false) := by
  refine ⟨rfl, rfl, by decide, by decide⟩

/-! ## C2 — the cross-origin guard's policy -/

/-- C2 counterexample: a `POST` with `Sec-Fetch-Site: cross-site` whose
`Origin` host (`example.com`) equals the `Host` header byte-for-byte is
denied by both guards (no bypass configured), refuting the claim's
"allows every request whose Origin host equals the Host header". -/
theorem c2_origin_match_does_not_override_sec_fetch_site :
    extractHost (lit "http://example.com") = some (lit "example.com")
    ∧ crossOriginMiddleware ⟨[], []⟩
        ⟨lit "POST", lit "/api/x", some (lit "cross-site"),
         some (lit "http://example.com"), some (lit "example.com")⟩ = .denyCrossOrigin
    ∧ checkCsrfProtection
        ⟨lit "POST", lit "/api/x", some (lit "cross-site"),
         some (lit "http://example.com"), some (lit "example.com")⟩ = false := by
  refine ⟨by decide, by decide, by decide⟩

/-- C2 (amended): safe methods are always allowed; with a non-empty
`Sec-Fetch-Site` header the middleware allows iff the value is
`same-origin` or `none` or the request is exempt (bypass pattern or
trusted origin), and the helper allows iff the value is `same-origin` or
`none`; and a request *without* a `Sec-Fetch-Site` header whose `Origin`
host equals the `Host` header byte-for-byte is allowed. -/
theorem c2_guard_policy (req : PeaqueRequest) (cfg : CsrfConfig) :
    ((req.method = lit "GET" ∨ req.method = lit "HEAD" ∨ req.method = lit "OPTIONS") →
      crossOriginMiddleware cfg req = .allow ∧ checkCsrfProtection req = true)
    ∧ (∀ s, req.secFetchSite = some s → s ≠ [] →
        ¬(req.method = lit "GET" ∨ req.method = lit "HEAD" ∨ req.method = lit "OPTIONS") →
        ((crossOriginMiddleware cfg req = .allow ↔
            (s = lit "same-origin" ∨ s = lit "none" ∨ isRequestExempt cfg req = true))
          ∧ (checkCsrfProtection req = true ↔ (s = lit "same-origin" ∨ s = lit "none"))))
    ∧ ((req.secFetchSite = none ∨ req.secFetchSite = some []) →
        ∀ o oh, req.origin = some o → extractHost o = some oh → req.host = some oh →
          crossOriginMiddleware cfg req = .allow ∧ checkCsrfProtection req = true) := by
  refine ⟨fun hm => ⟨?_, ?_⟩, fun s hs hne hm => ⟨?_, ?_⟩, fun hsfs o oh ho hex hh => ⟨?_, ?_⟩⟩
  · simp [crossOriginMiddleware, hm]
  · simp [checkCsrfProtection, hm]
  · rw [crossOriginMiddleware, if_neg hm, hs]
    simp only [if_pos hne]
    by_cases h1 : s = lit "same-origin" ∨ s = lit "none"
    · rw [if_pos h1]
      exact ⟨fun _ => h1.elim (fun h => Or.inl h) (fun h => Or.inr (Or.inl h)), fun _ => rfl⟩
    · simp only [if_neg h1]
      by_cases h2 : isRequestExempt cfg req = true
      · rw [if_pos h2]
        exact ⟨fun _ => Or.inr (Or.inr h2), fun _ => rfl⟩
      · simp only [if_neg h2]
        constructor
        · intro h; cases h
        · intro h
          rcases h with h | h | h
          · exact absurd (Or.inl h) h1
          · exact absurd (Or.inr h) h1
          · exact absurd h h2
  · rw [checkCsrfProtection, if_neg hm, hs]
    simp only [if_pos hne]
    simp
  · by_cases hm : (req.method = lit "GET" ∨ req.method = lit "HEAD" ∨ req.method = lit "OPTIONS")
    · simp [crossOriginMiddleware, hm]
    · have ho' : o ≠ [] := by
        intro h; rw [h] at hex; simp [extractHost, findSub, lit] at hex
      rw [crossOriginMiddleware, if_neg hm]
      rcases hsfs with h | h <;> rw [h] <;>
        simp [crossOriginMiddleware.originFallback, ho, ho', hex, hh]
  · by_cases hm : (req.method = lit "GET" ∨ req.method = lit "HEAD" ∨ req.method = lit "OPTIONS")
    · simp [checkCsrfProtection, hm]
    · have ho' : o ≠ [] := by
        intro h; rw [h] at hex; simp [extractHost, findSub, lit] at hex
      rw [checkCsrfProtection, if_neg hm]
      rcases hsfs with h | h <;> rw [h] <;>
        simp [checkCsrfProtection.checkOriginFallback, ho, ho', hex, hh]

/-- C2 witness: the amended policy applied to a concrete cross-site
`POST` with a bypass pattern matching its path — the middleware
allows. -/
theorem c2_guard_policy_witness :
    crossOriginMiddleware ⟨[fun p => strStartsWith p (lit "/api/webhook")], []⟩
      ⟨lit "POST", lit "/api/webhook/x", some (lit "cross-site"), none, none⟩ = .allow := by
  have h := (c2_guard_policy
      ⟨lit "POST", lit "/api/webhook/x", some (lit "cross-site"), none, none⟩
      ⟨[fun p => strStartsWith p (lit "/api/webhook")], []⟩).2.1
      (lit "cross-site") rfl (by decide) (by decide)
  exact h.1.mpr (Or.inr (Or.inr (by decide)))

/-! ## C3 — API request with no handler for the method -/

/-- C3 counterexample: a `PUT /api/test` matching a route whose module
only exports `GET` is answered with status 500 and body
`No handler for this method` — a 5xx, not the 4xx the claim states. -/
theorem c3_method_miss_is_500 :
    handleBackendApiRequest ⟨lit "PUT", lit "/api/test", none, none, none⟩
        (fun _ => some ⟨[], lit "handler.js", []⟩)
        (fun _ => some [(lit "GET", .fn (lit "ok"))])
      = .responded ⟨500, .text (lit "No handler for this method")⟩
    ∧ ¬(400 ≤ 500 ∧ 500 < 500) := by
  refine ⟨by decide, by decide⟩

/-- C3 (amended): whenever the request path matches a route of the API
tree and the resolved handler module has no function export named after
the upper-cased request method, the dev server responds with status 500
and the short body `No handler for this method` (no stack trace). -/
theorem c3_no_method_handler (req : PeaqueRequest)
    (matchRoute : Str → Option MatchResult) (loadModule : Str → Option JsModule)
    (mr : MatchResult) (m : JsModule)
    (hmatch : matchRoute (req.path.drop 4) = some mr)
    (hload : loadModule mr.handler = some m)
    (hmiss : lookupA m (toUpperStr req.method) = none
             ∨ lookupA m (toUpperStr req.method) = some .notFn) :
    handleBackendApiRequest req matchRoute loadModule
      = .responded ⟨500, .text (lit "No handler for this method")⟩ := by
  rw [handleBackendApiRequest, hmatch]
  rcases hmiss with h | h <;> simp [hload, h]

/-- C3 witness: the amended statement at the counterexample's input. -/
theorem c3_no_method_handler_witness :
    handleBackendApiRequest ⟨lit "PUT", lit "/api/test", none, none, none⟩
        (fun _ => some ⟨[], lit "handler.js", []⟩)
        (fun _ => some [(lit "GET", .fn (lit "ok"))])
      = .responded ⟨500, .text (lit "No handler for this method")⟩ :=
  c3_no_method_handler _ _ _ ⟨[], lit "handler.js", []⟩ [(lit "GET", .fn (lit "ok"))]
    rfl rfl (Or.inl (by decide))

/-! ## C7 — cache version gate -/

/-- C7 counterexample: with a persisted index recording version `1` and
the cache constructed with version `2`, a subdirectory `sub` of the
cache directory survives the purge — the cache directory is *not* empty
after load, refuting "empty, regardless of its prior contents" (only
regular files are unlinked). -/
theorem c7_subdirectory_survives_purge :
    (loadMetadataIndex (lit "2")
        [(indexName, .file (.indexFile (lit "1") [])), (lit "sub", .dir)]).files
      = [(lit "sub", FsEntry.dir)]
    ∧ (loadMetadataIndex (lit "2")
        [(indexName, .file (.indexFile (lit "1") [])), (lit "sub", .dir)]).files ≠ [] := by
  refine ⟨by decide, by decide⟩

/-- C7 (amended): if the persisted index's version differs from the
version the cache is constructed with, then after the load step the
metadata map is empty and the cache directory contains no regular files
(sub-directories, if any, are not removed). -/
theorem c7_version_gate (current v : Str) (entries : List CacheMetadata)
    (files : List (Str × FsEntry))
    (hidx : lookupA files indexName = some (.file (.indexFile v entries)))
    (hne : v ≠ current) :
    (loadMetadataIndex current files).metadataCache = []
    ∧ ∀ pr ∈ (loadMetadataIndex current files).files, pr.2.isFile = false := by
  have hload : loadMetadataIndex current files
      = clearAllFiles { metadataCache := [], files := files } := by
    rw [loadMetadataIndex, hidx]
    simp [hne]
  rw [hload]
  refine ⟨rfl, fun pr hpr => ?_⟩
  have := (List.mem_filter.mp hpr).2
  simpa using this

/-- C7 witness: the amended statement at the counterexample's input. -/
theorem c7_version_gate_witness :
    (loadMetadataIndex (lit "2")
        [(indexName, .file (.indexFile (lit "1") [])), (lit "sub", .dir)]).metadataCache = []
    ∧ ∀ pr ∈ (loadMetadataIndex (lit "2")
        [(indexName, .file (.indexFile (lit "1") [])), (lit "sub", .dir)]).files,
        pr.2.isFile = false :=
  c7_version_gate (lit "2") (lit "1") []
    [(indexName, .file (.indexFile (lit "1") [])), (lit "sub", .dir)]
    (by decide) (by decide)

/-! ## C10 — the merge normalizes head descriptors -/

/-- C10: for all head descriptors `p` and `c`, `mergeHead p c` has all
five sequence fields present (as arrays, empty when absent in both
inputs), and its title equals the child's when truthy, else the parent's
when truthy, else is absent — in particular the title is present exactly
when the child's or, failing that, the parent's title is a non-empty
string.  Descriptors with absent fields are therefore normalized by the
merge rather than returned unchanged. -/
theorem c10_mergeHead_normalizes (p c : HeadDefinition) :
    (mergeHead p c).meta.isSome = true
    ∧ (mergeHead p c).link.isSome = true
    ∧ (mergeHead p c).script.isSome = true
    ∧ (mergeHead p c).style.isSome = true
    ∧ (mergeHead p c).extra.isSome = true
    ∧ (mergeHead p c).title
        = (if truthyOpt c.title then c.title else if truthyOpt p.title then p.title else none)
    ∧ (mergeHead p c).title.isSome = (truthyOpt c.title || truthyOpt p.title) := by
  refine ⟨rfl, rfl, rfl, rfl, rfl, rfl, ?_⟩
  show (if truthyOpt c.title then c.title
        else if truthyOpt p.title then p.title else none).isSome = _
  by_cases hc : truthyOpt c.title = true
  · rw [if_pos hc, hc, Bool.true_or]
    cases hct : c.title with
    | none => rw [hct] at hc; simp [truthyOpt] at hc
    | some s => simp
  · have hc' : truthyOpt c.title = false := by simpa using hc
    rw [if_neg (by simp [hc']), hc', Bool.false_or]
    by_cases hp : truthyOpt p.title = true
    · rw [if_pos hp, hp]
      cases hpt : p.title with
      | none => rw [hpt] at hp; simp [truthyOpt] at hp
      | some s => simp
    · have hp' : truthyOpt p.title = false := by simpa using hp
      rw [if_neg (by simp [hp']), hp']
      simp

/-! ## C5 — head merge laws -/

/-- C5 counterexample: `merge(∅, ∅) ≠ ∅` — the merge materializes the
five sequence fields as present empty arrays, so the unit laws
`merge(∅, x) = x` and `merge(x, ∅) = x` fail as stated (already at
`x = ∅`). -/
theorem c5_unit_law_fails : mergeHead emptyHead emptyHead ≠ emptyHead := by
  decide

theorem findIdx?_eq_none_of_all {α : Type} (l : List α) (p : α → Bool)
    (h : ∀ a ∈ l, p a = false) : l.findIdx? p = none :=
  List.findIdx?_eq_none_iff.mpr h

theorem mergeInto_no_match {α : Type} (same : α → α → Bool) :
    ∀ (cs acc : List α), (∀ a ∈ acc, ∀ c ∈ cs, same a c = false) →
    cs.Pairwise (fun a b => same a b = false) →
    mergeInto same acc cs = acc ++ cs := by
  intro cs
  induction cs with
  | nil => intro acc _ _; simp [mergeInto]
  | cons c cs' ih =>
      intro acc hacc hpw
      have hnone : acc.findIdx? (fun q => same q c) = none :=
        findIdx?_eq_none_of_all _ _ (fun a ha => hacc a ha c (List.mem_cons_self c cs'))
      rw [mergeInto, hnone]
      have hpw' := List.pairwise_cons.mp hpw
      rw [ih (acc ++ [c]) ?_ hpw'.2]
      · simp
      · intro a ha c' hc'
        rcases List.mem_append.mp ha with h | h
        · exact hacc a h c' (List.mem_cons_of_mem c hc')
        · rw [List.mem_singleton.mp h]
          exact hpw'.1 c' hc'

/-- C5 (amended): `merge(x, ∅) = normalize(x)` where the normalization
materializes absent sequences as empty and drops a non-truthy title;
`merge(∅, x) = normalize(x)` additionally requires that no two items of
a sequence of `x` share identity (the merge collapses such pairs, child
slot winning); and when the parent's meta sequence has its first
identity-match with `m'` at position `i`, merging `{meta: [m']}` into
the parent replaces exactly that item in place and leaves the parent's
ordering otherwise unchanged. -/
theorem c5_merge_laws (x parent : HeadDefinition) (m' : MetaItem) (i : Nat) :
    mergeHead x emptyHead = normalizeHead x
    ∧ (selfCollapseFree x → mergeHead emptyHead x = normalizeHead x)
    ∧ ((parent.meta.getD []).findIdx? (fun q => metaSame q m') = some i →
        mergeHead parent
            { title := none, meta := some [m'], link := none, script := none,
              style := none, extra := none }
          = { normalizeHead parent with meta := some ((parent.meta.getD []).set i m') }) := by
  refine ⟨?_, fun hfree => ?_, fun hidx => ?_⟩
  · simp [mergeHead, normalizeHead, emptyHead, mergeByKey, mergeInto, truthyOpt]
  · obtain ⟨h1, h2, h3, h4⟩ := hfree
    simp only [mergeHead, normalizeHead, emptyHead, mergeByKey, Option.getD_none,
      truthyOpt]
    rw [mergeInto_no_match metaSame _ [] (by intro a ha; cases ha) h1,
        mergeInto_no_match linkSame _ [] (by intro a ha; cases ha) h2,
        mergeInto_no_match scriptSame _ [] (by intro a ha; cases ha) h3,
        mergeInto_no_match styleSame _ [] (by intro a ha; cases ha) h4]
    simp
  · have hmeta : mergeByKey parent.meta (some [m']) metaSame
        = (parent.meta.getD []).set i m' := by
      rw [mergeByKey, Option.getD_some]
      rw [mergeInto, hidx]
      rfl
    simp [mergeHead, normalizeHead, mergeByKey, mergeInto, truthyOpt, hmeta]
    rw [hidx]

/-- C5 witness: the merge laws applied at concrete inputs — the right
unit law at `∅`, and an in-place meta replacement at position 0. -/
theorem c5_merge_laws_witness :
    mergeHead emptyHead emptyHead = normalizeHead emptyHead
    ∧ mergeHead
        ⟨none, some [⟨some (lit "a"), none, none, none, some (lit "1")⟩], none, none, none, none⟩
        { title := none,
          meta := some [⟨some (lit "a"), none, none, none, some (lit "2")⟩],
          link := none, script := none, style := none, extra := none }
      = { normalizeHead
            ⟨none, some [⟨some (lit "a"), none, none, none, some (lit "1")⟩],
             none, none, none, none⟩ with
          meta := some ([(⟨some (lit "a"), none, none, none, some (lit "1")⟩ : MetaItem)].set 0
            ⟨some (lit "a"), none, none, none, some (lit "2")⟩) } := by
  constructor
  · exact (c5_merge_laws emptyHead emptyHead ⟨none, none, none, none, none⟩ 0).2.1
      (by refine ⟨?_, ?_, ?_, ?_⟩ <;> decide)
  · exact (c5_merge_laws emptyHead
      ⟨none, some [⟨some (lit "a"), none, none, none, some (lit "1")⟩], none, none, none, none⟩
      ⟨some (lit "a"), none, none, none, some (lit "2")⟩ 0).2.2 (by decide)

/-! ## C6 — disk-cache round trip -/

theorem cachePath_ne_indexName (k h : Str) : getCacheFilePath k h ≠ indexName := by
  intro he
  have h1 : (getCacheFilePath k h).getLast? = some 'e' := by
    rw [getCacheFilePath, List.getLast?_append]
    have h2 : (lit ".cache").getLast? = some 'e' := by decide
    rw [h2]
    rfl
  rw [he] at h1
  exact absurd h1 (by decide)

theorem cachePath_hash_ne (k h1 h2 : Str) (hne : h1.take 12 ≠ h2.take 12) :
    getCacheFilePath k h1 ≠ getCacheFilePath k h2 := by
  intro he
  rw [getCacheFilePath, getCacheFilePath] at he
  have h3 := List.append_cancel_right he
  have h4 := List.append_cancel_left h3
  exact hne (List.tail_eq_of_cons_eq h4)

theorem cacheStore_post (version : Str) (st : CacheState) (key hash value : Str) (now : Nat) :
    lookupA (cacheStore version st key hash value now).2.1.metadataCache key
      = some ⟨key, hash, now⟩
    ∧ lookupA (cacheStore version st key hash value now).2.1.files (getCacheFilePath key hash)
      = some (.file (.data value)) := by
  constructor
  · simp only [cacheStore]
    exact lookupA_upsert_self _ _ _
  · simp only [cacheStore]
    rw [lookupA_upsert_ne _ indexName (getCacheFilePath key hash) _
      (Ne.symm (cachePath_ne_indexName key hash))]
    exact lookupA_upsert_self _ _ _

theorem cacheByHash_post (version : Str) (st : CacheState) (key h v : Str) (n : Nat) :
    ∃ m w, lookupA (cacheByHash version st key h v n).2.1.metadataCache key = some m
      ∧ m.hash = h
      ∧ lookupA (cacheByHash version st key h v n).2.1.files (getCacheFilePath key h)
        = some (.file (.data w)) := by
  cases hm : lookupA st.metadataCache key with
  | none =>
      refine ⟨⟨key, h, n⟩, v, ?_, rfl, ?_⟩
      · simp only [cacheByHash, hm]
        exact (cacheStore_post version st key h v n).1
      · simp only [cacheByHash, hm]
        exact (cacheStore_post version st key h v n).2
  | some m =>
      by_cases hh : m.hash = h
      · cases hf : lookupA st.files (getCacheFilePath key h) with
        | none =>
            refine ⟨⟨key, h, n⟩, v, ?_, rfl, ?_⟩
            · simp only [cacheByHash, hm, if_pos hh, hf]
              exact (cacheStore_post version st key h v n).1
            · simp only [cacheByHash, hm, if_pos hh, hf]
              exact (cacheStore_post version st key h v n).2
        | some entry =>
            cases entry with
            | dir =>
                refine ⟨⟨key, h, n⟩, v, ?_, rfl, ?_⟩
                · simp only [cacheByHash, hm, if_pos hh, hf]
                  exact (cacheStore_post version st key h v n).1
                · simp only [cacheByHash, hm, if_pos hh, hf]
                  exact (cacheStore_post version st key h v n).2
            | file content =>
                cases content with
                | indexFile iv ie =>
                    refine ⟨⟨key, h, n⟩, v, ?_, rfl, ?_⟩
                    · simp only [cacheByHash, hm, if_pos hh, hf]
                      exact (cacheStore_post version st key h v n).1
                    · simp only [cacheByHash, hm, if_pos hh, hf]
                      exact (cacheStore_post version st key h v n).2
                | data c =>
                    refine ⟨m, c, ?_, hh, ?_⟩
                    · simp only [cacheByHash, hm, if_pos hh, hf]
                    · simp only [cacheByHash, hm, if_pos hh, hf]
      · refine ⟨⟨key, h, n⟩, v, ?_, rfl, ?_⟩
        · simp only [cacheByHash, hm, if_neg hh]
          exact (cacheStore_post version _ key h v n).1
        · simp only [cacheByHash, hm, if_neg hh]
          exact (cacheStore_post version _ key h v n).2

/-- C6 counterexample: two hashes differing only after their first 12
hex characters collide on the cache file name, so after the second call
with the "different hash" the cache file path previously stored for the
key under the old hash still exists — it was deleted and immediately
re-created for the new hash — refuting the deletion clause as stated. -/
theorem c6_short_hash_collision :
    lit "aaaaaaaaaaaa1" ≠ lit "aaaaaaaaaaaa2"
    ∧ lookupA (cacheByHash (lit "1")
          (cacheByHash (lit "1") ⟨[], []⟩ (lit "k") (lit "aaaaaaaaaaaa1") (lit "v1") 0).2.1
          (lit "k") (lit "aaaaaaaaaaaa2") (lit "v2") 0).2.1.files
        (getCacheFilePath (lit "k") (lit "aaaaaaaaaaaa1")) ≠ none := by
  refine ⟨by decide, by decide⟩

/-- C6 (amended): calling `cacheByHash` twice with the same `(key, hash)`
invokes the producer at most once — the second call never invokes it
(eviction and I/O failures are outside the model); and calling it on a
state holding `(key, h1)` with a hash `h2` whose first 12 characters
differ invokes the producer exactly once and leaves no file at the old
`(key, h1)` cache path. -/
theorem c6_cache_round_trip (version : Str) (st : CacheState) (key h1 h2 v1 v2 v3 : Str)
    (n1 n2 n3 : Nat) :
    (cacheByHash version (cacheByHash version st key h1 v1 n1).2.1 key h1 v2 n2).2.2 = false
    ∧ (h1.take 12 ≠ h2.take 12 →
        (cacheByHash version (cacheByHash version st key h1 v1 n1).2.1 key h2 v3 n3).2.2 = true
        ∧ lookupA (cacheByHash version
              (cacheByHash version st key h1 v1 n1).2.1 key h2 v3 n3).2.1.files
            (getCacheFilePath key h1) = none) := by
  obtain ⟨m, w, hmet, hhash, hfile⟩ := cacheByHash_post version st key h1 v1 n1
  generalize hg : (cacheByHash version st key h1 v1 n1).2.1 = st1 at hmet hfile ⊢
  constructor
  · simp only [cacheByHash, hmet, if_pos hhash, hfile]
  · intro hne
    have hne' : ¬(m.hash = h2) := by
      rw [hhash]
      intro hcontr
      exact hne (by rw [hcontr])
    constructor
    · simp only [cacheByHash, hmet, if_neg hne', cacheStore]
    · simp only [cacheByHash, hmet, if_neg hne', cacheStore]
      rw [lookupA_upsert_ne _ indexName (getCacheFilePath key h1) _
        (Ne.symm (cachePath_ne_indexName key h1))]
      rw [lookupA_upsert_ne _ (getCacheFilePath key h2) (getCacheFilePath key h1) _
        (cachePath_hash_ne key h2 h1 (Ne.symm hne))]
      rw [hhash]
      exact lookupA_removeA_self _ _

/-- C6 witness: the amended round trip at concrete inputs — hashes `h1`
and `h2` differ within their first 12 characters. -/
theorem c6_cache_round_trip_witness :
    (cacheByHash (lit "1") (cacheByHash (lit "1") ⟨[], []⟩ (lit "k") (lit "h1") (lit "v1") 0).2.1
        (lit "k") (lit "h1") (lit "v2") 1).2.2 = false
    ∧ ((cacheByHash (lit "1")
          (cacheByHash (lit "1") ⟨[], []⟩ (lit "k") (lit "h1") (lit "v1") 0).2.1
          (lit "k") (lit "h2") (lit "v3") 2).2.2 = true
        ∧ lookupA (cacheByHash (lit "1")
              (cacheByHash (lit "1") ⟨[], []⟩ (lit "k") (lit "h1") (lit "v1") 0).2.1
              (lit "k") (lit "h2") (lit "v3") 2).2.1.files
            (getCacheFilePath (lit "k") (lit "h1")) = none) :=
  ⟨(c6_cache_round_trip (lit "1") ⟨[], []⟩ (lit "k") (lit "h1") (lit "h2")
      (lit "v1") (lit "v2") (lit "v3") 0 1 2).1,
   (c6_cache_round_trip (lit "1") ⟨[], []⟩ (lit "k") (lit "h1") (lit "h2")
      (lit "v1") (lit "v2") (lit "v3") 0 1 2).2 (by decide)⟩

/-! ## C9 — server-action shim validation -/

theorem checkExportedDeclarators_sound :
    ∀ (decls : List Declarator) (acc acc2 : List Str),
    checkExportedDeclarators acc decls = .ok acc2 →
    ∀ pr ∈ declExports decls, pr.2 = true := by
  intro decls
  induction decls with
  | nil => intro acc acc2 _ pr hpr; simp [declExports] at hpr
  | cons d rest ih =>
      intro acc acc2 hok pr hpr
      simp only [declExports] at hpr
      cases hinit : d.init with
      | none =>
          simp only [checkExportedDeclarators, hinit] at hok
          rcases List.mem_append.mp hpr with h | h
          · rw [hinit] at h
            cases hid : d.idName <;> rw [hid] at h <;> cases h
          · exact ih acc acc2 hok pr h
      | some i =>
          simp only [checkExportedDeclarators, hinit] at hok
          cases ha : i.isAsync with
          | false => rw [ha] at hok; simp at hok
          | true =>
              rw [ha] at hok
              simp only [Bool.not_true, Bool.false_eq_true, if_false] at hok
              rcases List.mem_append.mp hpr with h | h
              · rw [hinit] at h
                cases hid : d.idName with
                | none => rw [hid] at h; cases h
                | some n =>
                    rw [hid] at h
                    rw [List.mem_singleton.mp h, ha]
              · exact ih _ acc2 hok pr h

theorem rpcProcessStmt_sound (locals : List (Str × Bool)) (acc : List Str) (stmt : Stmt)
    (l2 : List (Str × Bool)) (a2 : List Str)
    (hok : rpcProcessStmt locals acc stmt = .ok (l2, a2)) :
    ∀ pr ∈ stmtLocalExports stmt, pr.2 = true := by
  intro pr hpr
  cases stmt with
  | exportNamed decl hasSource specs =>
      cases decl with
      | none => simp [stmtLocalExports] at hpr
      | some d =>
          cases d with
          | funcDecl idName a =>
              simp only [rpcProcessStmt] at hok
              cases a with
              | false => simp at hok
              | true =>
                  simp only [stmtLocalExports] at hpr
                  cases hid : idName <;> rw [hid] at hpr
                  · cases hpr
                  · rw [List.mem_singleton.mp hpr]
          | varDecl decls =>
              simp only [rpcProcessStmt] at hok
              cases hc : checkExportedDeclarators acc decls with
              | error e => rw [hc] at hok; simp [Except.map] at hok
              | ok accr =>
                  simp only [stmtLocalExports] at hpr
                  exact checkExportedDeclarators_sound decls acc accr hc pr hpr
          | otherDecl => simp [stmtLocalExports] at hpr
  | exportDefaultFn a =>
      simp only [rpcProcessStmt] at hok
      cases a with
      | false => simp at hok
      | true =>
          simp only [stmtLocalExports] at hpr
          rw [List.mem_singleton.mp hpr]
  | funcDecl idName a => simp [stmtLocalExports] at hpr
  | varDecl decls => simp [stmtLocalExports] at hpr
  | exportAll => simp [stmtLocalExports] at hpr
  | exportDefaultIdent n => simp [stmtLocalExports] at hpr
  | exportDefaultOther => simp [stmtLocalExports] at hpr
  | otherStmt => simp [stmtLocalExports] at hpr

theorem rpcEnumerate_sound :
    ∀ (stmts : List Stmt) (locals : List (Str × Bool)) (acc names : List Str),
    rpcEnumerate locals acc stmts = .ok names →
    ∀ pr ∈ locallyDeclaredExports stmts, pr.2 = true := by
  intro stmts
  induction stmts with
  | nil => intro locals acc names _ pr hpr; simp [locallyDeclaredExports] at hpr
  | cons stmt rest ih =>
      intro locals acc names hok pr hpr
      rw [rpcEnumerate] at hok
      cases hp : rpcProcessStmt locals acc stmt with
      | error e => rw [hp] at hok; simp at hok
      | ok pair =>
          obtain ⟨l2, a2⟩ := pair
          rw [hp] at hok
          simp only [locallyDeclaredExports] at hpr
          rcases List.mem_append.mp hpr with h | h
          · exact rpcProcessStmt_sound locals acc stmt l2 a2 hp pr h
          · exact ih l2 a2 names hok pr h

theorem rpcEnumerate_exportAll :
    ∀ (stmts : List Stmt) (locals : List (Str × Bool)) (acc : List Str),
    Stmt.exportAll ∈ stmts → ∀ ns, rpcEnumerate locals acc stmts ≠ .ok ns := by
  intro stmts
  induction stmts with
  | nil => intro _ _ h; cases h
  | cons stmt rest ih =>
      intro locals acc hmem ns hok
      rw [rpcEnumerate] at hok
      rcases List.mem_cons.mp hmem with h | h
      · rw [← h] at hok
        simp [rpcProcessStmt] at hok
      · cases hp : rpcProcessStmt locals acc stmt with
        | error e => rw [hp] at hok; simp at hok
        | ok pair =>
            obtain ⟨l2, a2⟩ := pair
            rw [hp] at hok
            exact ih l2 a2 h ns hok

theorem checkLocalSpecifiers_sound :
    ∀ (specs : List ExportSpec) (locals : List (Str × Bool)) (acc acc2 : List Str),
    checkLocalSpecifiers locals acc specs = .ok acc2 →
    ∀ spec ∈ specs, ∀ a, lookupA locals spec.localName = some a → a = true := by
  intro specs
  induction specs with
  | nil => intro _ _ _ _ spec hs; cases hs
  | cons s rest ih =>
      intro locals acc acc2 hok spec hspec a hl
      rcases List.mem_cons.mp hspec with h | h
      · subst h
        cases hlk : lookupA locals spec.localName with
        | none => rw [hlk] at hl; cases hl
        | some b =>
            simp only [checkLocalSpecifiers, hlk] at hok
            rw [hlk] at hl
            injection hl with hb
            subst hb
            cases b with
            | false => simp at hok
            | true => rfl
      · cases hlk : lookupA locals s.localName with
        | none =>
            simp only [checkLocalSpecifiers, hlk] at hok
            exact ih locals acc acc2 hok spec h a hl
        | some b =>
            simp only [checkLocalSpecifiers, hlk] at hok
            cases b with
            | false => simp at hok
            | true =>
                simp only [Bool.not_true, Bool.false_eq_true, if_false] at hok
                exact ih locals _ acc2 hok spec h a hl

theorem rpcProcessStmt_locals (locals : List (Str × Bool)) (acc : List Str) (stmt : Stmt)
    (l2 : List (Str × Bool)) (a2 : List Str)
    (hok : rpcProcessStmt locals acc stmt = .ok (l2, a2)) :
    l2 = trackLocals locals stmt := by
  cases stmt with
  | exportNamed decl hasSource specs =>
      cases decl with
      | none =>
          simp only [rpcProcessStmt] at hok
          cases hs : hasSource with
          | false =>
              rw [hs] at hok
              simp only [Bool.not_false, if_true] at hok
              cases hc : checkLocalSpecifiers (trackLocals locals (.exportNamed none false specs)) acc specs with
              | error e =>
                  rw [hc] at hok
                  simp [Except.map] at hok
              | ok accr =>
                  rw [hc] at hok
                  simp only [Except.map, Except.ok.injEq, Prod.mk.injEq] at hok
                  exact hok.1.symm
          | true =>
              rw [hs] at hok
              simp only [Bool.not_true, Bool.false_eq_true, if_false, Except.ok.injEq,
                Prod.mk.injEq] at hok
              exact hok.1.symm
      | some d =>
          cases d with
          | funcDecl idName a =>
              simp only [rpcProcessStmt] at hok
              cases a with
              | false => simp at hok
              | true =>
                  simp only [Bool.not_true, Bool.false_eq_true, if_false, Except.ok.injEq,
                    Prod.mk.injEq] at hok
                  exact hok.1.symm
          | varDecl decls =>
              simp only [rpcProcessStmt] at hok
              cases hc : checkExportedDeclarators acc decls with
              | error e => rw [hc] at hok; simp [Except.map] at hok
              | ok accr =>
                  rw [hc] at hok
                  simp only [Except.map, Except.ok.injEq, Prod.mk.injEq] at hok
                  exact hok.1.symm
          | otherDecl =>
              simp only [rpcProcessStmt, Except.ok.injEq, Prod.mk.injEq] at hok
              exact hok.1.symm
  | exportAll => simp [rpcProcessStmt] at hok
  | exportDefaultFn a =>
      simp only [rpcProcessStmt] at hok
      cases a with
      | false => simp at hok
      | true =>
          simp only [Bool.not_true, Bool.false_eq_true, if_false, Except.ok.injEq,
            Prod.mk.injEq] at hok
          exact hok.1.symm
  | exportDefaultIdent n =>
      simp only [rpcProcessStmt] at hok
      rw [show trackLocals locals (Stmt.exportDefaultIdent n) = locals from rfl] at hok
      cases hlk : lookupA locals n with
      | none => rw [hlk] at hok; simp at hok
      | some a =>
          rw [hlk] at hok
          cases a with
          | false => simp at hok
          | true =>
              simp only [Bool.not_true, Bool.false_eq_true, if_false, Except.ok.injEq,
                Prod.mk.injEq] at hok
              exact hok.1.symm
  | funcDecl idName a =>
      simp only [rpcProcessStmt, Except.ok.injEq, Prod.mk.injEq] at hok
      exact hok.1.symm
  | varDecl decls =>
      simp only [rpcProcessStmt, Except.ok.injEq, Prod.mk.injEq] at hok
      exact hok.1.symm
  | exportDefaultOther =>
      simp only [rpcProcessStmt, Except.ok.injEq, Prod.mk.injEq] at hok
      exact hok.1.symm
  | otherStmt =>
      simp only [rpcProcessStmt, Except.ok.injEq, Prod.mk.injEq] at hok
      exact hok.1.symm

theorem rpcEnumerate_specifier_sound :
    ∀ (pre : List Stmt) (locals : List (Str × Bool)) (acc : List Str)
      (specs : List ExportSpec) (post : List Stmt) (names : List Str),
    rpcEnumerate locals acc (pre ++ Stmt.exportNamed none false specs :: post) = .ok names →
    ∀ spec ∈ specs, ∀ a,
      lookupA (localFunctionsAfter locals pre) spec.localName = some a → a = true := by
  intro pre
  induction pre with
  | nil =>
      intro locals acc specs post names hok spec hspec a hl
      simp only [List.nil_append] at hok
      rw [rpcEnumerate] at hok
      cases hp : rpcProcessStmt locals acc (.exportNamed none false specs) with
      | error e => rw [hp] at hok; simp at hok
      | ok pair =>
          simp only [rpcProcessStmt, Bool.not_false, if_true] at hp
          cases hc : checkLocalSpecifiers locals acc specs with
          | error e =>
              rw [show trackLocals locals (Stmt.exportNamed none false specs) = locals from rfl,
                hc] at hp
              simp [Except.map] at hp
          | ok acc2 =>
              exact checkLocalSpecifiers_sound specs locals acc acc2 hc spec hspec a hl
  | cons s rest ih =>
      intro locals acc specs post names hok spec hspec a hl
      simp only [List.cons_append] at hok
      rw [rpcEnumerate] at hok
      cases hp : rpcProcessStmt locals acc s with
      | error e => rw [hp] at hok; simp at hok
      | ok pair =>
          obtain ⟨l2, a2⟩ := pair
          rw [hp] at hok
          have hl2 := rpcProcessStmt_locals locals acc s l2 a2 hp
          subst hl2
          exact ih (trackLocals locals s) a2 specs post names hok spec hspec a hl

/-- C9 counterexample: a re-export `export { updateUser } from './other'`
whose target function is *not* async.  The generator succeeds and passes
the name through unvalidated (its own comment: re-exports cannot be
validated without resolving the imported file), refuting the claim that
every exported function — including re-exports — is verified
asynchronous. -/
theorem c9_reexport_not_validated :
    makeRpcShimExports
        [.exportNamed none true [⟨lit "updateUser", lit "updateUser", false⟩]]
      = .ok [lit "updateUser"]
    ∧ claimExportedFunctions
        [.exportNamed none true [⟨lit "updateUser", lit "updateUser", false⟩]]
      = [(lit "updateUser", false)] := by
  refine ⟨rfl, rfl⟩

/-- C9 (amended): the shim generator verifies asyncness for the locally
declared exported functions — whenever it succeeds, every named function
declaration, named arrow/function-expression variable and
default-exported function among the exports is async (first clause), and
at every sourceless `export \x7b foo \x7d` statement every specifier
whose local name is a tracked local function must name an async one
(second clause, over the `localFunctions` map accumulated up to that
statement); re-exports with a source are passed through unverified.
`export * from '…'` always fails with its diagnostic; a non-async export
named `updateUser` fails with the message `Exported function updateUser
is not async` — both when exported at its declaration and when exported
by a later specifier — and the same exports declared async succeed. -/
theorem c9_shim_validation (program : List Stmt) :
    (∀ names, makeRpcShimExports program = .ok names →
        ∀ pr ∈ locallyDeclaredExports program, pr.2 = true)
    ∧ (∀ pre specs post names,
        program = pre ++ Stmt.exportNamed none false specs :: post →
        makeRpcShimExports program = .ok names →
        ∀ spec ∈ specs, ∀ a,
          lookupA (localFunctionsAfter [] pre) spec.localName = some a → a = true)
    ∧ (Stmt.exportAll ∈ program → ∀ ns, makeRpcShimExports program ≠ .ok ns)
    ∧ makeRpcShimExports
        [.exportNamed (some (.funcDecl (some (lit "updateUser")) false)) false []]
        = .error (lit "Exported function updateUser is not async")
    ∧ makeRpcShimExports
        [.funcDecl (some (lit "updateUser")) false,
         .exportNamed none false [⟨lit "updateUser", lit "updateUser", false⟩]]
        = .error (lit "Exported function updateUser is not async")
    ∧ makeRpcShimExports
        [.exportNamed (some (.funcDecl (some (lit "updateUser")) true)) false []]
        = .ok [lit "updateUser"]
    ∧ makeRpcShimExports
        [.funcDecl (some (lit "updateUser")) true,
         .exportNamed none false [⟨lit "updateUser", lit "updateUser", true⟩]]
        = .ok [lit "updateUser"] := by
  refine ⟨?_, ?_, ?_, rfl, rfl, rfl, rfl⟩
  · intro names hok
    exact rpcEnumerate_sound program [] [] names hok
  · intro pre specs post names hpr hok spec hspec a hl
    subst hpr
    exact rpcEnumerate_specifier_sound pre [] [] specs post names hok spec hspec a hl
  · intro hmem ns
    exact rpcEnumerate_exportAll program [] [] hmem ns

/-- C9 witness: the amended statement applied concretely — the generator
never succeeds on `export * from '…'`, and its specifier clause applied
to the two-statement program `async function getUser ...; export
\x7b getUser \x7d` (which succeeds, with `getUser` tracked async). -/
theorem c9_shim_validation_witness :
    makeRpcShimExports [Stmt.exportAll] ≠ .ok []
    ∧ makeRpcShimExports
        [Stmt.funcDecl (some (lit "getUser")) true,
         Stmt.exportNamed none false [⟨lit "getUser", lit "getUser", true⟩]]
      = .ok [lit "getUser"]
    ∧ lookupA (localFunctionsAfter [] [Stmt.funcDecl (some (lit "getUser")) true])
        (lit "getUser") = some true
    ∧ true = true :=
  ⟨(c9_shim_validation [Stmt.exportAll]).2.2.1 (List.mem_singleton.mpr rfl) [],
   rfl, rfl,
   (c9_shim_validation
       [Stmt.funcDecl (some (lit "getUser")) true,
        Stmt.exportNamed none false [⟨lit "getUser", lit "getUser", true⟩]]).2.1
     [Stmt.funcDecl (some (lit "getUser")) true]
     [⟨lit "getUser", lit "getUser", true⟩] [] [lit "getUser"] rfl rfl
     ⟨lit "getUser", lit "getUser", true⟩ (List.mem_singleton.mpr rfl) true rfl⟩

/-! ## C8 — import rewriter idempotence -/

theorem resolvePath_passthrough (aliases : List (Str × Str)) (b p : Str)
    (h : strStartsWith p (lit "/@deps/") = true ∨ strStartsWith p (lit "/@src/") = true) :
    resolvePath aliases b p = p := by
  simp only [resolvePath]
  rw [if_pos h]

theorem resolvePath_shape (aliases : List (Str × Str)) (b p : Str) :
    (resolvePath aliases b p = p
      ∧ (strStartsWith p (lit "/@deps/") = true ∨ strStartsWith p (lit "/@src/") = true))
    ∨ (∃ x, resolvePath aliases b p = lit "/@src/" ++ x)
    ∨ (∃ x, resolvePath aliases b p = lit "/@deps/" ++ x) := by
  by_cases h1 : (strStartsWith p (lit "/@deps/") = true ∨ strStartsWith p (lit "/@src/") = true)
  · exact Or.inl ⟨resolvePath_passthrough aliases b p h1, h1⟩
  · by_cases h2 : strStartsWith p (lit ".") = true
    · refine Or.inr (Or.inl
        ⟨stripExtensions ((pathJoin b p).map (fun c => if c = '\\' then '/' else c)), ?_⟩)
      simp only [resolvePath]
      rw [if_neg h1, if_pos h2]
    · cases hA : findAlias aliases p with
      | some t =>
          refine Or.inr (Or.inl ⟨t, ?_⟩)
          simp only [resolvePath]
          rw [if_neg h1, if_neg h2, hA]
      | none =>
          by_cases h3 : strStartsWith p (lit "/") = true
          · refine Or.inr (Or.inl ⟨p, ?_⟩)
            simp only [resolvePath]
            rw [if_neg h1, if_neg h2, hA, if_pos h3]
          · refine Or.inr (Or.inr ⟨p, ?_⟩)
            simp only [resolvePath]
            rw [if_neg h1, if_neg h2, hA, if_neg h3]

theorem resolvePath_idem (aliases : List (Str × Str)) (b p : Str) :
    resolvePath aliases b (resolvePath aliases b p) = resolvePath aliases b p := by
  rcases resolvePath_shape aliases b p with ⟨heq, hpre⟩ | ⟨x, hx⟩ | ⟨x, hx⟩
  · rw [heq, resolvePath_passthrough aliases b p hpre]
  · rw [hx]
    exact resolvePath_passthrough aliases b _ (Or.inr (strStartsWith_self_append _ _))
  · rw [hx]
    exact resolvePath_passthrough aliases b _ (Or.inl (strStartsWith_self_append _ _))

/-- C8: the import rewriter is idempotent — rewriting a module twice
with the same including path produces the same chunks as rewriting it
once, because every path `resolvePath` emits starts with `/@src/` or
`/@deps/` and is passed through on the second run. -/
theorem c8_import_rewriter_idempotent (aliases : List (Str × Str)) (chunks : List Chunk)
    (includingPath : Str) :
    makeImportsRelative aliases (makeImportsRelative aliases chunks includingPath)
        includingPath
      = makeImportsRelative aliases chunks includingPath := by
  simp only [makeImportsRelative]
  induction chunks with
  | nil => rfl
  | cons c rest ih =>
      simp only [List.map_cons, ih]
      cases c with
      | text s => rfl
      | staticImport clause q => simp [resolvePath_idem]
      | dynamicImport q => simp [resolvePath_idem]

/-! ## C4 — path lemmas -/

theorem splitSlash_ne_nil (s : Str) : splitSlash s ≠ [] := by
  cases s with
  | nil => simp [splitSlash]
  | cons c rest =>
      by_cases h : c = '/'
      · simp [splitSlash, h]
      · simp only [splitSlash, if_neg h]
        cases splitSlash rest <;> simp

theorem splitSlash_cons_slash (s : Str) : splitSlash ('/' :: s) = [] :: splitSlash s := by
  simp [splitSlash]

theorem splitSlash_append_slash (a b : Str) :
    splitSlash (a ++ '/' :: b) = splitSlash a ++ splitSlash b := by
  induction a with
  | nil => simp [splitSlash]
  | cons c rest ih =>
      rw [List.cons_append]
      by_cases h : c = '/'
      · subst h
        rw [splitSlash_cons_slash, splitSlash_cons_slash, ih]
        rfl
      · simp only [splitSlash, if_neg h, List.append_eq]
        rw [ih]
        cases hs : splitSlash rest with
        | nil => exact absurd hs (splitSlash_ne_nil rest)
        | cons seg segs => rfl

theorem splitSlash_no_slash (s : Str) : ∀ seg ∈ splitSlash s, '/' ∉ seg := by
  induction s with
  | nil =>
      intro seg hseg
      simp [splitSlash] at hseg
      simp [hseg]
  | cons c rest ih =>
      intro seg hseg
      by_cases h : c = '/'
      · rw [splitSlash, if_pos h] at hseg
        rcases List.mem_cons.mp hseg with h1 | h1
        · simp [h1]
        · exact ih seg h1
      · rw [splitSlash, if_neg h] at hseg
        cases hs : splitSlash rest with
        | nil => exact absurd hs (splitSlash_ne_nil rest)
        | cons seg0 segs =>
            rw [hs] at hseg
            rcases List.mem_cons.mp hseg with h1 | h1
            · rw [h1]
              intro hmem
              rcases List.mem_cons.mp hmem with h2 | h2
              · exact h h2.symm
              · exact ih seg0 (hs ▸ List.mem_cons_self seg0 segs) h2
            · exact ih seg (hs ▸ List.mem_cons_of_mem seg0 h1)

theorem splitSlash_of_no_slash (s : Str) (h : '/' ∉ s) : splitSlash s = [s] := by
  induction s with
  | nil => rfl
  | cons c rest ih =>
      have hc : ¬(c = '/') := fun hcc => h (hcc ▸ List.mem_cons_self c rest)
      have hrest : '/' ∉ rest := fun hm => h (List.mem_cons_of_mem c hm)
      rw [splitSlash, if_neg hc, ih hrest]

theorem joinSlash_append (as bs : List Str) (ha : as ≠ []) (hb : bs ≠ []) :
    joinSlash (as ++ bs) = joinSlash as ++ '/' :: joinSlash bs := by
  induction as with
  | nil => exact absurd rfl ha
  | cons a as' ih =>
      cases as' with
      | nil =>
          cases bs with
          | nil => exact absurd rfl hb
          | cons b bs' => simp [joinSlash]
      | cons a2 as'' =>
          have h0 : joinSlash ((a :: a2 :: as'') ++ bs)
              = a ++ '/' :: joinSlash ((a2 :: as'') ++ bs) := rfl
          rw [h0, ih (by simp),
            show joinSlash (a :: a2 :: as'') = a ++ '/' :: joinSlash (a2 :: as'') from rfl,
            List.append_assoc]
          rfl

theorem splitSlash_joinSlash (segs : List Str) (hne : segs ≠ [])
    (h : ∀ seg ∈ segs, '/' ∉ seg) : splitSlash (joinSlash segs) = segs := by
  induction segs with
  | nil => exact absurd rfl hne
  | cons seg rest ih =>
      cases rest with
      | nil => exact splitSlash_of_no_slash seg (h seg (List.mem_cons_self seg []))
      | cons seg2 rest' =>
          have hj : joinSlash (seg :: seg2 :: rest') = seg ++ '/' :: joinSlash (seg2 :: rest') :=
            rfl
          rw [hj, splitSlash_append_slash,
              splitSlash_of_no_slash seg (h seg (List.mem_cons_self seg _)),
              ih (by simp) (fun s hs => h s (List.mem_cons_of_mem seg hs))]
          rfl

theorem normAcc_append (isAbs : Bool) (l1 l2 : List Str) :
    ∀ acc, normAcc isAbs acc (l1 ++ l2) = normAcc isAbs (normAcc isAbs acc l1) l2 := by
  induction l1 with
  | nil => intro acc; simp [normAcc]
  | cons seg rest ih =>
      intro acc
      by_cases h1 : seg = [] ∨ seg = lit "."
      · simp only [List.cons_append, normAcc, if_pos h1]
        exact ih acc
      · by_cases h2 : seg = lit ".."
        · cases acc with
          | nil =>
              cases isAbs with
              | true =>
                  simp only [List.cons_append, normAcc, if_neg h1, if_pos h2]
                  exact ih []
              | false =>
                  simp only [List.cons_append, normAcc, if_neg h1, if_pos h2]
                  exact ih [lit ".."]
          | cons a restAcc =>
              by_cases h3 : a = lit ".."
              · simp only [List.cons_append, normAcc, if_neg h1, if_pos h2, if_pos h3]
                exact ih _
              · simp only [List.cons_append, normAcc, if_neg h1, if_pos h2, if_neg h3]
                exact ih restAcc
        · simp only [List.cons_append, normAcc, if_neg h1, if_neg h2]
          exact ih (seg :: acc)

theorem normAcc_no_up (l : List Str) (h : ∀ s ∈ l, s ≠ lit "..") :
    ∀ acc, normAcc true acc l = (cleanOf l).reverse ++ acc := by
  induction l with
  | nil => intro acc; simp [normAcc, cleanOf]
  | cons seg rest ih =>
      intro acc
      have hrest : ∀ s ∈ rest, s ≠ lit ".." := fun s hs => h s (List.mem_cons_of_mem seg hs)
      by_cases h1 : seg = [] ∨ seg = lit "."
      · simp only [normAcc, if_pos h1, cleanOf]
        exact ih hrest acc
      · have h2 : ¬(seg = lit "..") := h seg (List.mem_cons_self seg rest)
        simp only [normAcc, if_neg h1, if_neg h2, cleanOf]
        rw [ih hrest (seg :: acc)]
        simp

theorem normAcc_clean (l : List Str) (hl : ∀ s ∈ l, '/' ∉ s) :
    ∀ acc, (∀ s ∈ acc, cleanSeg s) → ∀ s ∈ normAcc true acc l, cleanSeg s := by
  induction l with
  | nil => intro acc hacc s hs; exact hacc s hs
  | cons seg rest ih =>
      intro acc hacc s hs
      have hrest : ∀ t ∈ rest, '/' ∉ t := fun t ht => hl t (List.mem_cons_of_mem seg ht)
      by_cases h1 : seg = [] ∨ seg = lit "."
      · simp only [normAcc, if_pos h1] at hs
        exact ih hrest acc hacc s hs
      · by_cases h2 : seg = lit ".."
        · cases acc with
          | nil =>
              simp only [normAcc, if_neg h1, if_pos h2] at hs
              exact ih hrest [] (by intro t ht; cases ht) s hs
          | cons a restAcc =>
              have ha : ¬(a = lit "..") :=
                (hacc a (List.mem_cons_self a restAcc)).2.2.1
              simp only [normAcc, if_neg h1, if_pos h2, if_neg ha] at hs
              exact ih hrest restAcc
                (fun t ht => hacc t (List.mem_cons_of_mem a ht)) s hs
        · simp only [normAcc, if_neg h1, if_neg h2] at hs
          refine ih hrest (seg :: acc) ?_ s hs
          intro t ht
          rcases List.mem_cons.mp ht with h | h
          · subst h
            refine ⟨fun he => h1 (Or.inl he), fun he => h1 (Or.inr he), h2, ?_⟩
            exact hl t (List.mem_cons_self _ _)
          · exact hacc t h

theorem cleanOf_of_clean (l : List Str) (h : ∀ s ∈ l, ¬(s = [] ∨ s = lit ".")) :
    cleanOf l = l := by
  induction l with
  | nil => rfl
  | cons seg rest ih =>
      rw [cleanOf, if_neg (h seg (List.mem_cons_self seg rest)),
        ih (fun s hs => h s (List.mem_cons_of_mem seg hs))]

theorem cleanOf_append (l1 l2 : List Str) :
    cleanOf (l1 ++ l2) = cleanOf l1 ++ cleanOf l2 := by
  induction l1 with
  | nil => rfl
  | cons seg rest ih =>
      by_cases h : seg = [] ∨ seg = lit "."
      · simp only [List.cons_append, cleanOf, if_pos h, List.append_eq, ih]
      · simp only [List.cons_append, cleanOf, if_neg h, List.append_eq, ih]

theorem mem_cleanOf (l : List Str) (s : Str) (hs : s ∈ cleanOf l) :
    s ∈ l ∧ ¬(s = [] ∨ s = lit ".") := by
  induction l with
  | nil => cases hs
  | cons seg rest ih =>
      by_cases h : seg = [] ∨ seg = lit "."
      · rw [cleanOf, if_pos h] at hs
        obtain ⟨h1, h2⟩ := ih hs
        exact ⟨List.mem_cons_of_mem seg h1, h2⟩
      · rw [cleanOf, if_neg h] at hs
        rcases List.mem_cons.mp hs with h1 | h1
        · exact ⟨h1 ▸ List.mem_cons_self seg rest, h1 ▸ h⟩
        · obtain ⟨h2, h3⟩ := ih h1
          exact ⟨List.mem_cons_of_mem seg h2, h3⟩

theorem normAbs_render (segs : List Str) (h : ∀ s ∈ segs, cleanSeg s) :
    normAbs ('/' :: joinSlash segs) = segs := by
  cases hs : segs with
  | nil => rfl
  | cons seg rest =>
      subst hs
      rw [normAbs, normSegsList, splitSlash_cons_slash,
        splitSlash_joinSlash _ (by simp) (fun s hsm => (h s hsm).2.2.2)]
      have hstep : normAcc true [] ([] :: seg :: rest) = normAcc true [] (seg :: rest) := by
        simp [normAcc]
      rw [hstep, normAcc_no_up _ (fun s hsm => (h s hsm).2.2.1) []]
      rw [cleanOf_of_clean _ (fun s hsm => by
        intro hor
        rcases hor with h1 | h1
        · exact (h s hsm).1 h1
        · exact (h s hsm).2.1 h1)]
      simp

theorem normAbs_render_trailing (segs : List Str) (h : ∀ s ∈ segs, cleanSeg s) :
    normAbs (('/' :: joinSlash segs) ++ ['/']) = segs := by
  cases hs : segs with
  | nil => rfl
  | cons seg rest =>
      subst hs
      have hsplit : splitSlash ((('/' :: joinSlash (seg :: rest))) ++ ['/'])
          = ([] :: (seg :: rest)) ++ [[]] := by
        have : (('/' :: joinSlash (seg :: rest))) ++ ['/']
            = ('/' :: joinSlash (seg :: rest)) ++ '/' :: ([] : Str) := rfl
        rw [this, splitSlash_append_slash, splitSlash_cons_slash,
          splitSlash_joinSlash _ (by simp) (fun s hsm => (h s hsm).2.2.2)]
        rfl
      rw [normAbs, normSegsList, hsplit]
      have hnoup : ∀ s ∈ ([] :: (seg :: rest)) ++ [([] : Str)], s ≠ lit ".." := by
        intro s hsm
        rcases List.mem_append.mp hsm with h1 | h1
        · rcases List.mem_cons.mp h1 with h2 | h2
          · subst h2; intro hcontr; cases hcontr
          · exact (h s h2).2.2.1
        · rw [List.mem_singleton.mp h1]
          intro hcontr; cases hcontr
      rw [normAcc_no_up _ hnoup []]
      rw [cleanOf_append]
      have h1 : cleanOf [([] : Str)] = [] := rfl
      have h2 : cleanOf ([] :: seg :: rest) = cleanOf (seg :: rest) := rfl
      rw [h1, h2, cleanOf_of_clean _ (fun s hsm => by
        intro hor
        rcases hor with hh | hh
        · exact (h s hsm).1 hh
        · exact (h s hsm).2.1 hh)]
      simp

theorem mem_modifyLast {α : Type} (f : α → α) (l : List α) (s : α)
    (hs : s ∈ modifyLast f l) : s ∈ l ∨ ∃ x ∈ l, s = f x := by
  induction l with
  | nil => cases hs
  | cons a rest ih =>
      cases rest with
      | nil =>
          rcases List.mem_singleton.mp hs with h
          exact Or.inr ⟨a, List.mem_cons_self a [], h⟩
      | cons b rest' =>
          rcases List.mem_cons.mp hs with h | h
          · exact Or.inl (h ▸ List.mem_cons_self a (b :: rest'))
          · rcases ih h with h1 | ⟨x, hx1, hx2⟩
            · exact Or.inl (List.mem_cons_of_mem a h1)
            · exact Or.inr ⟨x, List.mem_cons_of_mem a hx1, hx2⟩

theorem splitSlash_append_no_slash (a ext : Str) (h : '/' ∉ ext) :
    splitSlash (a ++ ext) = modifyLast (· ++ ext) (splitSlash a) := by
  induction a with
  | nil =>
      rw [List.nil_append, splitSlash_of_no_slash ext h]
      rfl
  | cons c rest ih =>
      by_cases hc : c = '/'
      · subst hc
        rw [List.cons_append, splitSlash_cons_slash, splitSlash_cons_slash, ih]
        cases hs : splitSlash rest with
        | nil => exact absurd hs (splitSlash_ne_nil rest)
        | cons seg segs => rfl
      · rw [List.cons_append]
        simp only [splitSlash, if_neg hc, List.append_eq]
        rw [ih]
        cases hs : splitSlash rest with
        | nil => exact absurd hs (splitSlash_ne_nil rest)
        | cons seg segs =>
            cases segs with
            | nil => rfl
            | cons seg2 segs' => rfl

theorem startsSlash (x : Str) : strStartsWith ('/' :: x) (lit "/") = true := by
  simp [strStartsWith, lit, List.isPrefixOf]

theorem normSegsList_clean (l : List Str) (hl : ∀ s ∈ l, '/' ∉ s) :
    ∀ s ∈ normSegsList true l, cleanSeg s := by
  intro s hs
  rw [normSegsList] at hs
  exact normAcc_clean l hl [] (by intro t ht; cases ht) s (List.mem_reverse.mp hs)

theorem nodeNormalize_abs (q : Str) (h : strStartsWith q (lit "/") = true) (hq : q ≠ []) :
    nodeNormalize q = '/' :: joinSlash (normSegsList true (splitSlash q))
    ∨ nodeNormalize q = ('/' :: joinSlash (normSegsList true (splitSlash q))) ++ ['/'] := by
  rw [nodeNormalize, if_neg hq]
  simp only [h, if_true]
  split
  · right; rfl
  · left; rfl

theorem srcPath_no_up (q : Str) (h : strStartsWith q (lit "/") = true) (hq : q ≠ []) :
    ∀ s ∈ splitSlash (nodeNormalize q), s ≠ lit ".." := by
  have hclean : ∀ s ∈ normSegsList true (splitSlash q), cleanSeg s :=
    normSegsList_clean _ (splitSlash_no_slash q)
  have hcore : ∀ s ∈ splitSlash ('/' :: joinSlash (normSegsList true (splitSlash q))),
      s ≠ lit ".." := by
    cases hcs : normSegsList true (splitSlash q) with
    | nil =>
        intro s hs
        have : splitSlash ('/' :: joinSlash ([] : List Str)) = [[], []] := rfl
        rw [this] at hs
        rcases List.mem_cons.mp hs with h1 | h1
        · subst h1; intro hc; cases hc
        · rw [List.mem_singleton.mp h1]; intro hc; cases hc
    | cons c cs' =>
        intro s hs
        rw [splitSlash_cons_slash,
          splitSlash_joinSlash _ (by simp)
            (fun t ht => (hclean t (hcs ▸ ht)).2.2.2)] at hs
        rcases List.mem_cons.mp hs with h1 | h1
        · subst h1; intro hc; cases hc
        · exact (hclean s (hcs ▸ h1)).2.2.1
  rcases nodeNormalize_abs q h hq with h1 | h1 <;> rw [h1]
  · exact hcore
  · intro s hs
    have heq : ('/' :: joinSlash (normSegsList true (splitSlash q))) ++ ['/']
        = ('/' :: joinSlash (normSegsList true (splitSlash q))) ++ '/' :: ([] : Str) := rfl
    rw [heq, splitSlash_append_slash] at hs
    rcases List.mem_append.mp hs with h2 | h2
    · exact hcore s h2
    · have : splitSlash ([] : Str) = [[]] := rfl
      rw [this] at h2
      rw [List.mem_singleton.mp h2]
      intro hc; cases hc

theorem append_ext_no_up (a ext : Str) (hext : '/' ∉ ext)
    (hlen : ext = [] ∨ 3 ≤ ext.length)
    (ha : ∀ s ∈ splitSlash a, s ≠ lit "..") :
    ∀ s ∈ splitSlash (a ++ ext), s ≠ lit ".." := by
  intro s hs
  rw [splitSlash_append_no_slash a ext hext] at hs
  rcases mem_modifyLast _ _ _ hs with h1 | ⟨x, hx1, hx2⟩
  · exact ha s h1
  · subst hx2
    rcases hlen with h | h
    · subst h
      rw [List.append_nil]
      exact ha x hx1
    · intro hcontr
      have hlen2 := congrArg List.length hcontr
      rw [List.length_append] at hlen2
      have : (lit "..").length = 2 := rfl
      omega

theorem append_slashext_no_up (a e : Str) (he : '/' ∉ e) (hne : e ≠ lit "..")
    (ha : ∀ s ∈ splitSlash a, s ≠ lit "..") :
    ∀ s ∈ splitSlash (a ++ '/' :: e), s ≠ lit ".." := by
  intro s hs
  rw [splitSlash_append_slash] at hs
  rcases List.mem_append.mp hs with h1 | h1
  · exact ha s h1
  · rw [splitSlash_of_no_slash e he] at h1
    rw [List.mem_singleton.mp h1]
    exact hne

theorem pathJoin_abs (a b : Str) (ha : a ≠ []) (hb : b ≠ []) :
    pathJoin a b = nodeNormalize (a ++ '/' :: b) := by
  simp only [pathJoin]
  have hfil : [a, b].filter (fun p => p ≠ []) = [a, b] := by
    simp [List.filter, ha, hb]
  rw [hfil, if_neg (by simp)]
  rfl

theorem normAbs_preserve (t : Str) : normAbs ('/' :: t) = normSegsList true (splitSlash t) := by
  rw [normAbs, splitSlash_cons_slash, normSegsList, normSegsList]
  have : normAcc true [] ([] :: splitSlash t) = normAcc true [] (splitSlash t) := by
    simp [normAcc]
  rw [this]

theorem pathResolve_render (cwd : Str) (segs : List Str) (h : ∀ s ∈ segs, cleanSeg s) :
    pathResolve cwd ('/' :: joinSlash segs) = '/' :: joinSlash segs := by
  simp only [pathResolve, startsSlash, if_true]
  rw [show normAbs ('/' :: joinSlash segs)
      = normSegsList true (splitSlash ('/' :: joinSlash segs)) from rfl]
  rw [← normAbs]
  rw [normAbs_render segs h]

theorem pathResolve_nodeNormalize_abs (cwd q : Str)
    (h : strStartsWith q (lit "/") = true) (hq : q ≠ []) :
    pathResolve cwd (nodeNormalize q)
      = '/' :: joinSlash (normSegsList true (splitSlash q)) := by
  have hclean : ∀ s ∈ normSegsList true (splitSlash q), cleanSeg s :=
    normSegsList_clean _ (splitSlash_no_slash q)
  rcases nodeNormalize_abs q h hq with h1 | h1 <;> rw [h1]
  · exact pathResolve_render cwd _ hclean
  · have habs : strStartsWith (('/' :: joinSlash (normSegsList true (splitSlash q))) ++ ['/'])
        (lit "/") = true := by
      rw [List.cons_append]
      exact startsSlash _
    simp only [pathResolve, habs, if_true]
    rw [normAbs_render_trailing _ hclean]

theorem srcCandidate_shape (bsegs : List Str) (cwd p ext : Str)
    (hb : ∀ s ∈ bsegs, cleanSeg s) (hne : bsegs ≠ [])
    (hext : ext ∈ extensionsList) :
    ∃ csegs,
      pathResolve cwd (pathJoin ('/' :: joinSlash bsegs) (nodeNormalize ('/' :: p) ++ ext))
        = '/' :: joinSlash (bsegs ++ csegs) := by
  have hq : ('/' :: p) ≠ [] := by simp
  have habs : strStartsWith ('/' :: p) (lit "/") = true := startsSlash p
  have hnoup : ∀ s ∈ splitSlash (nodeNormalize ('/' :: p)), s ≠ lit ".." :=
    srcPath_no_up _ habs hq
  have hspStart : ∃ t, nodeNormalize ('/' :: p) = '/' :: t := by
    rcases nodeNormalize_abs _ habs hq with h1 | h1
    · exact ⟨_, h1⟩
    · exact ⟨joinSlash (normSegsList true (splitSlash ('/' :: p))) ++ ['/'],
        by rw [h1, List.cons_append]⟩
  obtain ⟨t, ht⟩ := hspStart
  have hciNoup : ∀ s ∈ splitSlash (nodeNormalize ('/' :: p) ++ ext), s ≠ lit ".." := by
    simp only [extensionsList, List.mem_cons, List.not_mem_nil, or_false] at hext
    rcases hext with he | he | he | he | he | he | he | he | he <;> subst he
    · exact append_ext_no_up _ _ (by decide) (Or.inl rfl) hnoup
    · exact append_ext_no_up _ _ (by decide) (Or.inr (by decide)) hnoup
    · exact append_ext_no_up _ _ (by decide) (Or.inr (by decide)) hnoup
    · exact append_ext_no_up _ _ (by decide) (Or.inr (by decide)) hnoup
    · exact append_ext_no_up _ _ (by decide) (Or.inr (by decide)) hnoup
    · rw [show lit "/index.ts" = '/' :: lit "index.ts" from rfl]
      exact append_slashext_no_up _ _ (by decide) (by decide) hnoup
    · rw [show lit "/index.tsx" = '/' :: lit "index.tsx" from rfl]
      exact append_slashext_no_up _ _ (by decide) (by decide) hnoup
    · rw [show lit "/index.js" = '/' :: lit "index.js" from rfl]
      exact append_slashext_no_up _ _ (by decide) (by decide) hnoup
    · rw [show lit "/index.jsx" = '/' :: lit "index.jsx" from rfl]
      exact append_slashext_no_up _ _ (by decide) (by decide) hnoup
  have hbase_ne : ('/' :: joinSlash bsegs) ≠ [] := by simp
  have hci_ne : nodeNormalize ('/' :: p) ++ ext ≠ [] := by rw [ht]; simp
  rw [pathJoin_abs _ _ hbase_ne hci_ne]
  have hq'abs : strStartsWith
      (('/' :: joinSlash bsegs) ++ '/' :: (nodeNormalize ('/' :: p) ++ ext)) (lit "/")
        = true := by
    rw [List.cons_append]
    exact startsSlash _
  have hq'ne : ('/' :: joinSlash bsegs) ++ '/' :: (nodeNormalize ('/' :: p) ++ ext) ≠ [] := by
    simp
  rw [pathResolve_nodeNormalize_abs cwd _ hq'abs hq'ne]
  refine ⟨cleanOf (splitSlash (nodeNormalize ('/' :: p) ++ ext)), ?_⟩
  congr 1
  rw [splitSlash_append_slash, splitSlash_cons_slash,
    splitSlash_joinSlash bsegs hne (fun s hs => (hb s hs).2.2.2)]
  have hnoupAll : ∀ s ∈ ([] :: bsegs) ++ splitSlash (nodeNormalize ('/' :: p) ++ ext),
      s ≠ lit ".." := by
    intro s hs
    rcases List.mem_append.mp hs with h1 | h1
    · rcases List.mem_cons.mp h1 with h2 | h2
      · subst h2; intro hc; cases hc
      · exact (hb s h2).2.2.1
    · exact hciNoup s h1
  rw [normSegsList, normAcc_no_up _ hnoupAll [], List.append_nil, List.reverse_reverse]
  rw [show cleanOf (([] :: bsegs) ++ splitSlash (nodeNormalize ('/' :: p) ++ ext))
      = cleanOf ([] :: bsegs) ++ cleanOf (splitSlash (nodeNormalize ('/' :: p) ++ ext))
    from cleanOf_append _ _]
  rw [show cleanOf ([] :: bsegs) = cleanOf bsegs from rfl]
  rw [cleanOf_of_clean bsegs (fun s hs => by
    intro hor
    rcases hor with h1 | h1
    · exact (hb s hs).1 h1
    · exact (hb s hs).2.1 h1)]

theorem srcCandidate_under_root (bsegs : List Str) (cwd p ext : Str)
    (hb : ∀ s ∈ bsegs, cleanSeg s) (hne : bsegs ≠ [])
    (hext : ext ∈ extensionsList) :
    strStartsWith
        (pathResolve cwd (pathJoin ('/' :: joinSlash bsegs) (nodeNormalize ('/' :: p) ++ ext)))
        (pathResolve cwd ('/' :: joinSlash bsegs) ++ ['/']) = true
    ∨ pathResolve cwd (pathJoin ('/' :: joinSlash bsegs) (nodeNormalize ('/' :: p) ++ ext))
        = pathResolve cwd ('/' :: joinSlash bsegs) := by
  obtain ⟨csegs, hc⟩ := srcCandidate_shape bsegs cwd p ext hb hne hext
  rw [hc, pathResolve_render cwd bsegs hb]
  cases csegs with
  | nil => right; rw [List.append_nil]
  | cons c cs' =>
      left
      rw [joinSlash_append bsegs (c :: cs') hne (by simp)]
      have heq : ('/' :: (joinSlash bsegs ++ '/' :: joinSlash (c :: cs')))
          = (('/' :: joinSlash bsegs) ++ ['/']) ++ joinSlash (c :: cs') := by
        rw [List.append_assoc]
        rfl
      rw [heq]
      exact strStartsWith_self_append _ _

theorem serve_404_iff (reqPath basePath cwd : Str) (fs : SrcFs)
    (hunder : ∀ c ∈ srcCandidates basePath cwd reqPath,
        strStartsWith c (pathResolve cwd basePath ++ ['/']) = true
        ∨ c = pathResolve cwd basePath) :
    (serveSourceModule reqPath basePath cwd fs
        = .response ⟨404, .text (lit "File not found")⟩
      ↔ ∀ c ∈ srcCandidates basePath cwd reqPath, existsAsFile fs c = false) := by
  rw [serveSourceModule]
  cases hfind : (srcCandidates basePath cwd reqPath).find? (fun candidate =>
      (strStartsWith candidate (pathResolve cwd basePath ++ ['/'])
        || candidate = pathResolve cwd basePath) && existsAsFile fs candidate) with
  | none =>
      constructor
      · intro _ c hc
        have hnp := List.find?_eq_none.mp hfind c hc
        cases hb : existsAsFile fs c with
        | false => rfl
        | true =>
            exfalso
            apply hnp
            rcases hunder c hc with h1 | h1
            · simp [h1, hb]
            · subst h1
              simp [hb]
      · intro _
        rfl
  | some q =>
      constructor
      · intro h
        cases h
      · intro hall
        have hq := List.find?_some hfind
        have hmem := List.mem_of_find?_eq_some hfind
        have hfile := (Bool.and_eq_true _ _).mp hq
        rw [hall q hmem] at hfile
        cases hfile.2

/-- C4: for every dev-server request `/@src/<p>` (project root given by
its clean absolute segments `bsegs`), resolution tries exactly the
candidates `<p>`, `<p>.ts`, `<p>.tsx`, `<p>.js`, `<p>.jsx`,
`<p>/index.ts`, `<p>/index.tsx`, `<p>/index.js`, `<p>/index.jsx` in this
order; every candidate resolves under the project root after path
normalization (so the claim's "escaping candidate ⇒ 403" clause holds
vacuously — `path.normalize` absorbs every `..` of the absolute request
path, and the code merely skips a candidate that fails its root check);
and 404 `File not found` is returned exactly when no candidate is an
existing regular file. -/
theorem c4_source_resolution (p cwd : Str) (bsegs : List Str) (fs : SrcFs)
    (hne : bsegs ≠ []) (hclean : ∀ s ∈ bsegs, cleanSeg s) :
    (srcCandidates ('/' :: joinSlash bsegs) cwd (lit "/@src/" ++ p)
      = [lit "", lit ".ts", lit ".tsx", lit ".js", lit ".jsx", lit "/index.ts",
         lit "/index.tsx", lit "/index.js", lit "/index.jsx"].map
          (fun ext => pathResolve cwd
            (pathJoin ('/' :: joinSlash bsegs) (nodeNormalize ('/' :: p) ++ ext))))
    ∧ (∀ c ∈ srcCandidates ('/' :: joinSlash bsegs) cwd (lit "/@src/" ++ p),
        strStartsWith c (pathResolve cwd ('/' :: joinSlash bsegs) ++ ['/']) = true
        ∨ c = pathResolve cwd ('/' :: joinSlash bsegs))
    ∧ (∀ c ∈ srcCandidates ('/' :: joinSlash bsegs) cwd (lit "/@src/" ++ p),
        ¬(strStartsWith c (pathResolve cwd ('/' :: joinSlash bsegs) ++ ['/']) = true
          ∨ c = pathResolve cwd ('/' :: joinSlash bsegs)) →
        serveSourceModule (lit "/@src/" ++ p) ('/' :: joinSlash bsegs) cwd fs
          = .response ⟨403, .text []⟩)
    ∧ (serveSourceModule (lit "/@src/" ++ p) ('/' :: joinSlash bsegs) cwd fs
          = .response ⟨404, .text (lit "File not found")⟩
        ↔ ∀ c ∈ srcCandidates ('/' :: joinSlash bsegs) cwd (lit "/@src/" ++ p),
            existsAsFile fs c = false) := by
  have hmain : ∀ c ∈ srcCandidates ('/' :: joinSlash bsegs) cwd (lit "/@src/" ++ p),
      strStartsWith c (pathResolve cwd ('/' :: joinSlash bsegs) ++ ['/']) = true
      ∨ c = pathResolve cwd ('/' :: joinSlash bsegs) := by
    intro c hc
    have hcand : srcCandidates ('/' :: joinSlash bsegs) cwd (lit "/@src/" ++ p)
        = extensionsList.map (fun ext =>
            pathResolve cwd
              (pathJoin ('/' :: joinSlash bsegs) (nodeNormalize ('/' :: p) ++ ext))) := rfl
    rw [hcand] at hc
    obtain ⟨ext, hext, hceq⟩ := List.mem_map.mp hc
    subst hceq
    exact srcCandidate_under_root bsegs cwd p ext hclean hne hext
  exact ⟨rfl, hmain, fun c hc hbad => absurd (hmain c hc) hbad,
    serve_404_iff _ _ _ fs hmain⟩

/-- C4 witness: with project root `/proj` and an empty file system, the
request `/@src/x` is answered 404. -/
theorem c4_source_resolution_witness :
    serveSourceModule (lit "/@src/" ++ lit "x") ('/' :: joinSlash [lit "proj"])
        (lit "/cwd") ⟨[]⟩
      = .response ⟨404, .text (lit "File not found")⟩ := by
  have h := (c4_source_resolution (lit "x") (lit "/cwd") [lit "proj"] ⟨[]⟩
    (by decide)
    (by
      intro s hs
      rw [List.mem_singleton.mp hs]
      exact ⟨by decide, by decide, by decide, by decide⟩)).2.2.2
  exact h.mpr (fun c _ => rfl)

end Peaque
